import Mathlib

/-!
# simple-shell: a shallow embedding of `shell.c`

The C program keeps three pieces of state per shell process: the history
counter and the ten history slots (locals of `main`, passed by pointer to
`parse_and_execute`) and the global `shell_nesting_level`.  A 256-byte
buffer is modelled by the list of characters it holds; every position past
the end of the list reads as the terminator `NUL`.  Everything the program
asks of the operating system (`fork`, `execv`, `chdir`, `access`,
`getenv`, `waitpid`, `getpid`) is answered by an `Env` record, and the model
follows one process: after `fork` the field `Env.fork` says on which side of
the fork the followed process finds itself.

`command_counter` is a C `int` that the program only ever increments from 0;
it is modelled by a natural number.  The model says what the program does as
long as the counter stays below 2^31, the range of the `int`; statements
about runs carry that bound.  The index of a replay is the `int` that `atoi`
returns, with the wrap-around of the C library for numbers of 2^31 and more.
A history slot is modelled by the characters in its memory; the string it
holds ends before the first terminator.  The array `cmd_history` of `main` is
not initialised: a fresh shell starts with arbitrary slots (`fresh`).
-/

namespace SimpleShell

/-! ## Constants of `shell.c` -/

/-- Size of the shell input buffer. -/
def SHELL_BUFFER_SIZE : Nat := 256

/-- Maximum number of arguments parsed. -/
def SHELL_MAX_ARGS : Nat := 8

/-- Size of the command history circular queue. -/
def HISTORY_SIZE : Nat := 10

/-- Maximum allowed nesting of subshells. -/
def MAX_SHELL_NESTING : Nat := 3

/-- The string terminator, the character with code 0. -/
def NUL : Char := Char.ofNat 0

/-! ## The C library functions the program uses -/

/-- The `isspace` of the C locale: space, tab, newline, vertical tab, form feed, carriage return. -/
def isspace (c : Char) : Bool :=
  c == ' ' || c == '\t' || c == '\n' || c == Char.ofNat 11 || c == Char.ofNat 12 || c == '\r'

/-- The `isdigit` of C: the ten decimal digits. -/
def isdigit (c : Char) : Bool :=
  decide (48 ≤ c.toNat) && decide (c.toNat ≤ 57)

/-- The C string stored at the start of a region of memory: the characters before the first `NUL`. -/
def cstr (mem : List Char) : List Char :=
  mem.takeWhile (fun c => c != NUL)

/-- The `strlen` of C. -/
def strlen (mem : List Char) : Nat :=
  (cstr mem).length

/-- The C string found in the destination after `strncpy (dst, src, n)`: the first `n`
characters of the string `src` (all of it whenever `strlen src < n`, which holds for every
string kept in a buffer of `n` bytes). -/
def strncpy (src : List Char) (n : Nat) : List Char :=
  (cstr src).take n

/-- The character `buffer[i]`; positions past the end of the list hold the terminator. -/
def charAt (buffer : List Char) (i : Nat) : Char :=
  buffer.getD i NUL

/-- The C string that starts at offset `off` of `buffer` (what a `char *` into the buffer denotes). -/
def strAt (buffer : List Char) (off : Nat) : List Char :=
  cstr (buffer.drop off)

/-- The digits read by `atoi`, accumulated in `acc`. -/
def atoi_digits : List Char → Nat → Nat
  | [], acc => acc
  | c :: cs, acc => if isdigit c then atoi_digits cs (10 * acc + (c.toNat - 48)) else acc

/-- The value `strtol (text, NULL, 10)` returns for a text that starts with a digit, with a
64-bit `long`: the decimal number formed by the leading digits, or `LONG_MAX` when that number
does not fit. -/
def strtol (text : List Char) : Nat :=
  min (atoi_digits text 0) (2 ^ 63 - 1)

/-- The conversion of a `long` that is not negative to `int`: the value modulo 2^32, read as
a signed 32-bit number. -/
def long_to_int (v : Nat) : Int :=
  if v % 2 ^ 32 < 2 ^ 31 then Int.ofNat (v % 2 ^ 32) else Int.ofNat (v % 2 ^ 32) - 2 ^ 32

/-- The `atoi` of the C library on a text that starts with a digit (the only use in `main`),
which is `(int) strtol (text, NULL, 10)`.  Below 2^31 the result is the decimal number formed
by the leading digits.  From 2^31 on the C standard defines nothing and the library wraps:
`4294967296` gives 0 and `2147483648` gives a negative number. -/
def atoi (text : List Char) : Int :=
  long_to_int (strtol text)

/-- The pieces `strtok` hands out for one delimiter: the maximal non-empty runs of
characters other than `delim`; `cur` is the run being read, in reverse. -/
def strtok_fields (delim : Char) : List Char → List Char → List (List Char)
  | [], cur => if cur = [] then [] else [cur.reverse]
  | c :: cs, cur =>
    if c = delim then
      (if cur = [] then strtok_fields delim cs [] else cur.reverse :: strtok_fields delim cs [])
    else strtok_fields delim cs (c :: cur)

/-! ## State, environment and observable events -/

/-- The parser states of the tokenizer. -/
inductive ParserState
  | STATE_SPACE
  | STATE_NON_SPACE
  deriving DecidableEq, Repr

/-- The state of one shell process. -/
structure Shell where
  /-- The `command_counter` of `main`. -/
  command_counter : Nat
  /-- The memory of the ten slots `cmd_history[0..9]`, each from its first byte on; the
  string a slot holds is `cstr` of it, and the program reads nothing behind that string. -/
  cmd_history : Fin 10 → List Char
  /-- The global `shell_nesting_level`. -/
  shell_nesting_level : Nat

/-- What `fork ()` returns in the process that is followed. -/
inductive ForkResult
  | failed
  | child
  | parent (pid : Nat)
  deriving DecidableEq, Repr

/-- The answers of the operating system during one iteration of the loop of `main`. -/
structure Env where
  /-- The value of `getpid ()`. -/
  pid : Nat
  /-- The result of `fork ()`. -/
  fork : ForkResult
  /-- Whether `chdir (dir)` succeeds (returns 0). -/
  chdir : List Char → Bool
  /-- The value of `getenv ("PATH")`, `none` for a null pointer. -/
  path_env : Option (List Char)
  /-- Whether `access (path, X_OK)` returns 0. -/
  access : List Char → Bool
  /-- Whether `execv (path, args)` replaces the process image; `false` when it returns. -/
  execv : List Char → Bool
  /-- The `WEXITSTATUS` of the child that `waitpid` waited for. -/
  wait_status : Nat

/-- The system calls and messages of the program, in the order they happen. -/
inductive Event
  | prompt (pid level slot : Nat)
  | exiting (pid : Nat)
  | listing (idx : Nat) (text : List Char)
  | chdir (dir : List Char)
  | cdFailed (dir : List Char)
  | nestingError
  | fork
  | forkFailed
  | forked (pid : Nat)
  | notWaiting
  | waitpid (pid : Nat)
  | finished (pid : Nat)
  | childFailed (pid code : Nat)
  | access (path : List Char)
  | execv (path : List Char) (argv : List (List Char))
  | notExist (cmd : List Char)
  | notValid
  | reExecuting (text : List Char)
  deriving DecidableEq, Repr

/-- How a call of `parse_and_execute` (or of a function it calls) ends. -/
inductive Outcome
  /-- The function returned `ret`, leaving the shell state `s`. -/
  | returned (ret : Int) (s : Shell)
  /-- The process called `exit (status)`. -/
  | exited (status : Nat)
  /-- A successful `execv` replaced the process image. -/
  | replaced (path : List Char) (argv : List (List Char))
  /-- The C program has no defined behaviour here: `buffer[-1]` is written for an empty
  string, or `getenv ("PATH")` is null. -/
  | undefined
  /-- The tokenizer loop of the model was given too little fuel (never happens, see
  `parse_and_execute_fuel`). -/
  | outOfFuel

/-- How one iteration of the loop of `main` ends. -/
inductive Loop
  /-- The loop goes on to the next iteration with state `s`. -/
  | continue (s : Shell)
  /-- The process terminated with this exit status. -/
  | stop (status : Nat)
  /-- A successful `execv` replaced the process image. -/
  | replaced (path : List Char) (argv : List (List Char))
  /-- No defined behaviour: as for `Outcome.undefined`, or `cmd_history` was read at a
  negative index. -/
  | undefined
  /-- The tokenizer loop of the model was given too little fuel (never happens). -/
  | outOfFuel

/-! ## `search_path`, `imthechild`, `imtheparent` -/

/-- The path `sprintf (path_to_exec, "%s/%s", dir, cmd)` builds. -/
def path_to_exec (dir cmd : List Char) : List Char :=
  dir ++ '/' :: cmd

/-- The `while` loop of `search_path`: the `access` calls made and the first candidate that
is executable. -/
def search_loop (cmd : List Char) (env : Env) : List (List Char) → List Event × Option (List Char)
  | [] => ([], none)
  | dir :: dirs =>
    if env.access (path_to_exec dir cmd) then ([Event.access (path_to_exec dir cmd)], some (path_to_exec dir cmd))
    else
      ((Event.access (path_to_exec dir cmd)) :: (search_loop cmd env dirs).1, (search_loop cmd env dirs).2)

/-- The function `search_path`: the result is `-1` unless `execv` takes over. -/
def search_path (cmd : List Char) (args : List (List Char)) (s : Shell) (env : Env) :
    List Event × Outcome :=
  match env.path_env with
  | none => ([], Outcome.undefined)
  | some path_copy =>
    match search_loop cmd env (strtok_fields ':' path_copy []) with
    | (evs, some found) =>
      if env.execv found then (evs ++ [Event.execv found args], Outcome.replaced found args)
      else (evs ++ [Event.execv found args], Outcome.returned (-1) s)
    | (evs, none) => (evs ++ [Event.notExist cmd], Outcome.returned (-1) s)

/-- The function `imthechild`. -/
def imthechild (path : List Char) (args : List (List Char)) (s : Shell) (env : Env) :
    List Event × Outcome :=
  if '/' ∈ path then
    (if env.execv path then ([Event.execv path args], Outcome.replaced path args)
     else ([Event.execv path args], Outcome.returned (-1) s))
  else search_path path args s env

/-- The function `imtheparent`. -/
def imtheparent (child_pid : Nat) (run_in_background : Bool) (env : Env) : List Event :=
  if run_in_background then [Event.forked child_pid, Event.notWaiting]
  else
    [Event.forked child_pid, Event.waitpid child_pid, Event.finished child_pid] ++
      (if env.wait_status ≠ 0 then [Event.childFailed child_pid env.wait_status] else [])

/-! ## `parse_and_execute` -/

/-- The tokenizer loop of `parse_and_execute` (lines 118 to 132).  `exec_argv` holds the
offsets into `buffer` of the arguments found so far, so `exec_argc` is its length.  One unit of
`fuel` is spent per test of the loop condition. -/
def tokenLoop : Nat → List Char → Nat → ParserState → List Nat → Option (List Char × List Nat)
  | 0, _, _, _, _ => none
  | fuel + 1, buffer, i, parser_state, exec_argv =>
    if charAt buffer i ≠ NUL ∧ exec_argv.length < SHELL_MAX_ARGS then
      if !isspace (charAt buffer i) then
        tokenLoop fuel buffer (i + 1) ParserState.STATE_NON_SPACE
          (if parser_state = ParserState.STATE_SPACE then exec_argv ++ [i] else exec_argv)
      else
        tokenLoop fuel (buffer.set i NUL) (i + 1) ParserState.STATE_SPACE exec_argv
    else some (buffer, exec_argv)

/-- The value of `run_in_background` (line 115). -/
def run_in_background (buffer : List Char) : Bool :=
  decide (strlen buffer > 2) && (charAt buffer (strlen buffer - 2) == '&')

/-- The buffer after line 116, `buffer[n_read - run_in_background - 1] = 0`, for `n_read > 0`. -/
def cut (buffer : List Char) : List Char :=
  buffer.set (strlen buffer - (run_in_background buffer).toNat - 1) NUL

/-- Lines 116 to 132: the buffer split in place and the offsets in `exec_argv`. -/
def tokenize (buffer : List Char) : Option (List Char × List Nat) :=
  tokenLoop (buffer.length + 1) (cut buffer) 0 ParserState.STATE_SPACE []

/-- The strings `exec_argv[0]`, `exec_argv[1]`, ... that the tokenizer leaves for `buffer`. -/
def argv_of (buffer : List Char) : Option (List (List Char)) :=
  (tokenize buffer).map (fun r => r.2.map (strAt r.1))

/-- The two statements that record a line: `strncpy` into slot `command_counter % HISTORY_SIZE`
and the increment of the counter (an `int` in C: the increment is what C defines as long as
the counter is below `INT_MAX`). -/
def record (s : Shell) (original_command : List Char) : Shell :=
  { command_counter := s.command_counter + 1
    cmd_history := fun j =>
      if j.val = s.command_counter % HISTORY_SIZE then strncpy original_command SHELL_BUFFER_SIZE
      else s.cmd_history j
    shell_nesting_level := s.shell_nesting_level }

/-- The slot index `n % HISTORY_SIZE`. -/
def slotOf (n : Nat) : Fin 10 :=
  ⟨n % HISTORY_SIZE, Nat.mod_lt n (by decide)⟩

/-- The listing printed by `!!` (lines 154 to 158). -/
def history_listing (s : Shell) : List Event :=
  (List.range (min HISTORY_SIZE s.command_counter)).map (fun i =>
    Event.listing ((s.command_counter - i - 1) % HISTORY_SIZE)
      (cstr (s.cmd_history (slotOf (s.command_counter - i - 1)))))

/-- The state of the child of the `shell` built-in (lines 200 to 207): the first byte of
every slot becomes the terminator, so every slot holds the empty string. -/
def subshell (s : Shell) : Shell :=
  { command_counter := 0
    cmd_history := fun _ => []
    shell_nesting_level := s.shell_nesting_level + 1 }

/-- Lines 141 to 248 of `parse_and_execute`, once the tokenizer has found at least one
argument: `arg0` is `exec_argv[0]`, `args` all the arguments. -/
def dispatch (original_command arg0 : List Char) (args : List (List Char)) (bg : Bool)
    (s : Shell) (env : Env) : List Event × Outcome :=
  if arg0 = "exit".toList then ([Event.exiting env.pid], Outcome.exited 0)
  else if arg0 = "!!".toList then
    (history_listing (record s original_command), Outcome.returned 0 (record s original_command))
  else if arg0 = "cd".toList ∧ args.length > 1 then
    (Event.chdir (args.getD 1 []) ::
        (if env.chdir (args.getD 1 []) then [] else [Event.cdFailed (args.getD 1 [])]),
      Outcome.returned 0 (record s original_command))
  else if arg0 = "shell".toList then
    if s.shell_nesting_level ≥ MAX_SHELL_NESTING - 1 then
      ([Event.nestingError], Outcome.returned 0 (record s original_command))
    else
      match env.fork with
      | ForkResult.failed => ([Event.fork, Event.forkFailed], Outcome.returned 0 s)
      | ForkResult.child => ([Event.fork], Outcome.returned 1 (subshell s))
      | ForkResult.parent pid =>
        (Event.fork :: imtheparent pid bg env, Outcome.returned 0 (record s original_command))
  else
    match env.fork with
    | ForkResult.failed => ([Event.fork, Event.forkFailed], Outcome.returned 0 s)
    | ForkResult.child =>
      (Event.fork :: (imthechild arg0 args s env).1, (imthechild arg0 args s env).2)
    | ForkResult.parent pid =>
      (Event.fork :: imtheparent pid bg env, Outcome.returned 0 (record s original_command))

/-- The function `parse_and_execute`. -/
def parse_and_execute (buffer : List Char) (s : Shell) (env : Env) : List Event × Outcome :=
  if strlen buffer = 0 then ([], Outcome.undefined)
  else
    match tokenize buffer with
    | none => ([], Outcome.outOfFuel)
    | some (_, []) => ([], Outcome.returned 0 s)
    | some (buffer2, a0 :: rest) =>
      dispatch (strncpy buffer SHELL_BUFFER_SIZE) (strAt buffer2 a0)
        ((a0 :: rest).map (strAt buffer2)) (run_in_background buffer) s env

/-! ## `main` -/

/-- What the loop of `main` does with the way `parse_and_execute` ended: whatever value is
returned, the loop goes on. -/
def after_call : Outcome → Loop
  | Outcome.returned _ s => Loop.continue s
  | Outcome.exited status => Loop.stop status
  | Outcome.replaced path argv => Loop.replaced path argv
  | Outcome.undefined => Loop.undefined
  | Outcome.outOfFuel => Loop.outOfFuel

/-- The test of line 271: the line asks for an indexed replay. -/
def is_replay (buffer : List Char) : Bool :=
  (charAt buffer 0 == '!') && decide (strlen buffer > 1) && isdigit (charAt buffer 1)

/-- One iteration of the `while (1)` loop of `main`; `input` is the string `fgets` left in
`buffer`, or `none` when `fgets` returned `NULL`.  In the replay test of line 276 a negative
`history_index` is neither `>= HISTORY_SIZE` nor `>= command_counter`, so the third operand
reads `cmd_history[history_index][0]` outside the array. -/
def main_iteration (s : Shell) (input : Option (List Char)) (env : Env) : List Event × Loop :=
  match input with
  | none => ([Event.prompt env.pid s.shell_nesting_level (s.command_counter % HISTORY_SIZE)], Loop.stop 0)
  | some buffer =>
    if is_replay buffer then
      match atoi (buffer.drop 1) with
      | Int.negSucc _ =>
        ([Event.prompt env.pid s.shell_nesting_level (s.command_counter % HISTORY_SIZE)], Loop.undefined)
      | Int.ofNat history_index =>
        if h : history_index < 10 then
          if history_index ≥ s.command_counter ∨ charAt (s.cmd_history ⟨history_index, h⟩) 0 = NUL then
            ([Event.prompt env.pid s.shell_nesting_level (s.command_counter % HISTORY_SIZE),
              Event.notValid], Loop.continue s)
          else
            (Event.prompt env.pid s.shell_nesting_level (s.command_counter % HISTORY_SIZE) ::
              Event.reExecuting (strncpy (s.cmd_history ⟨history_index, h⟩) SHELL_BUFFER_SIZE) ::
              (parse_and_execute (strncpy (s.cmd_history ⟨history_index, h⟩) SHELL_BUFFER_SIZE) s env).1,
             after_call
              (parse_and_execute (strncpy (s.cmd_history ⟨history_index, h⟩) SHELL_BUFFER_SIZE) s env).2)
        else
          ([Event.prompt env.pid s.shell_nesting_level (s.command_counter % HISTORY_SIZE),
            Event.notValid], Loop.continue s)
    else
      (Event.prompt env.pid s.shell_nesting_level (s.command_counter % HISTORY_SIZE) ::
        (parse_and_execute buffer s env).1,
       after_call (parse_and_execute buffer s env).2)

/-- The function `main` on a finite input: each element is a line read by `fgets` with the
answers of the operating system during its iteration; after the last one `fgets` returns
`NULL`.  The result is the trace of the process and the way it ended. -/
def main_loop (s : Shell) : List (List Char × Env) → Env → List Event × Loop
  | [], last => main_iteration s none last
  | (line, env) :: rest, last =>
    match main_iteration s (some line) env with
    | (evs, Loop.continue s1) => (evs ++ (main_loop s1 rest last).1, (main_loop s1 rest last).2)
    | r => r

/-- The state in which `main` starts: counter 0, nesting level 0, and whatever the stack held
in the uninitialised array `cmd_history`. -/
def fresh (garbage : Fin 10 → List Char) : Shell :=
  { command_counter := 0, cmd_history := garbage, shell_nesting_level := 0 }

/-- A line as `fgets` leaves it in the 256-byte buffer: at most 255 characters, none of them
the terminator. -/
def fgets_line (line : List Char) : Prop :=
  line.length ≤ 255 ∧ NUL ∉ line

instance (line : List Char) : Decidable (fgets_line line) := by
  unfold fgets_line; infer_instance

/-- The states a shell process can be in at the head of the loop of `main`: the state `main`
starts in, and every state an iteration leaves when the loop goes on (this covers the child of
`shell` and the child whose launch failed, which both go on with the loop). -/
inductive Reachable : Shell → Prop
  | start (garbage : Fin 10 → List Char) : Reachable (fresh garbage)
  | step (s s1 : Shell) (line : List Char) (env : Env) :
      Reachable s → fgets_line line →
      (main_iteration s (some line) env).2 = Loop.continue s1 → Reachable s1

/-! ## Observations on results -/

/-- The state left by a call that returned. -/
def Outcome.state? : Outcome → Option Shell
  | Outcome.returned _ s => some s
  | _ => none

/-- The value returned by a call that returned. -/
def Outcome.ret? : Outcome → Option Int
  | Outcome.returned r _ => some r
  | _ => none

/-- The state with which the loop goes on, if it does. -/
def Loop.state? : Loop → Option Shell
  | Loop.continue s => some s
  | _ => none

/-- The exit status of a process that terminated. -/
def Loop.status? : Loop → Option Nat
  | Loop.stop c => some c
  | _ => none

/-- Whether the iteration left defined behaviour. -/
def Loop.is_undefined : Loop → Bool
  | Loop.undefined => true
  | _ => false

/-- An environment for examples: the followed process is the one named by `f`, `PATH` is
`/bin`, no file is executable, no directory can be entered, children exit with status 0. -/
def sampleEnv (f : ForkResult) : Env :=
  { pid := 100, fork := f, chdir := fun _ => false, path_env := some "/bin".toList,
    access := fun _ => false, execv := fun _ => false, wait_status := 0 }

/-- A state for examples: one command recorded, the line `ls`, which every slot holds. -/
def lsShell : Shell :=
  { command_counter := 1, cmd_history := fun _ => "ls\n".toList, shell_nesting_level := 0 }

/-- A state for examples: every slot empty. -/
def emptyShell (counter level : Nat) : Shell :=
  { command_counter := counter, cmd_history := fun _ => [], shell_nesting_level := level }


/-! ## Definitions written from the words of the specification -/

/-- The last character of the line that is not whitespace, if there is one (the words of the
specification for the background flag). -/
def last_non_space (line : List Char) : Option Char :=
  line.reverse.find? (fun c => !isspace c)

/-- The reference whitespace splitter of the specification: the maximal runs of characters
that are not whitespace, in order; `cur` is the run being read, in reverse. -/
def reference_split_from : List Char → List Char → List (List Char)
  | [], cur => if cur = [] then [] else [cur.reverse]
  | c :: cs, cur =>
    if isspace c then
      (if cur = [] then reference_split_from cs [] else cur.reverse :: reference_split_from cs [])
    else reference_split_from cs (c :: cur)

/-- The reference whitespace splitter of the specification. -/
def reference_split (line : List Char) : List (List Char) :=
  reference_split_from line []

/-! ## Auxiliary definitions for the proofs -/

/-- The events `parse_and_execute` can produce: all but the prompt, the "Not valid" message
and the echo of a replayed line, which belong to `main`. -/
def dispatch_event (e : Event) : Prop :=
  match e with
  | Event.prompt _ _ _ => False
  | Event.notValid => False
  | Event.reExecuting _ => False
  | _ => True

/-- Successive calls of `parse_and_execute` in one shell instance, each of which returns
having recorded its line (the counter went up by one); there is no result as soon as a call
does anything else. -/
def run_recorded (s : Shell) : List (List Char × Env) → Option Shell
  | [] => some s
  | (line, env) :: rest =>
    match (parse_and_execute line s env).2 with
    | Outcome.returned _ s1 =>
      if s1.command_counter = s.command_counter + 1 then run_recorded s1 rest else none
    | _ => none

/-- Eleven distinct commands, each run in the parent of a successful fork. -/
def elevenCommands : List (List Char × Env) :=
  ["c0\n", "c1\n", "c2\n", "c3\n", "c4\n", "c5\n", "c6\n", "c7\n", "c8\n", "c9\n", "c10\n"].map
    (fun t => (t.toList, sampleEnv (ForkResult.parent 7)))

/-- The invariant of the history ring: every slot below the counter holds a line as `fgets`
delivers it, not empty, in which the tokenizer finds at least one argument. -/
def ring_valid (s : Shell) : Prop :=
  ∀ i : Fin 10, i.val < s.command_counter →
    fgets_line (s.cmd_history i) ∧ s.cmd_history i ≠ [] ∧
      ∃ arg0 args, argv_of (s.cmd_history i) = some (arg0 :: args)

/-- Two shell states that differ at most in the slots at or above the counter, the slots
that were not written since the instance started. -/
def same_below_counter (s t : Shell) : Prop :=
  s.command_counter = t.command_counter ∧ s.shell_nesting_level = t.shell_nesting_level ∧
    ∀ i : Fin 10, i.val < s.command_counter → s.cmd_history i = t.cmd_history i

/-- Two calls ended the same way, with states that differ at most above the counter. -/
def Outcome.same : Outcome → Outcome → Prop
  | Outcome.returned r s, Outcome.returned r2 t => r = r2 ∧ same_below_counter s t
  | Outcome.exited a, Outcome.exited b => a = b
  | Outcome.replaced p a, Outcome.replaced q b => p = q ∧ a = b
  | Outcome.undefined, Outcome.undefined => True
  | Outcome.outOfFuel, Outcome.outOfFuel => True
  | _, _ => False

/-- Two iterations ended the same way, with states that differ at most above the counter. -/
def Loop.same : Loop → Loop → Prop
  | Loop.continue s, Loop.continue t => same_below_counter s t
  | Loop.stop a, Loop.stop b => a = b
  | Loop.replaced p a, Loop.replaced q b => p = q ∧ a = b
  | Loop.undefined, Loop.undefined => True
  | Loop.outOfFuel, Loop.outOfFuel => True
  | _, _ => False

/-- The tokenizer loop told on the characters still to be scanned (none of them a
terminator): the characters as the loop leaves them, and the offsets of the arguments that
start among them, counted from the first of them.  `exec_argc` is the number of arguments
found before. -/
def scan : List Char → ParserState → Nat → List Char × List Nat
  | [], _, _ => ([], [])
  | c :: cs, parser_state, exec_argc =>
    if exec_argc < SHELL_MAX_ARGS then
      if !isspace c then
        (c :: (scan cs ParserState.STATE_NON_SPACE
            (if parser_state = ParserState.STATE_SPACE then exec_argc + 1 else exec_argc)).1,
          if parser_state = ParserState.STATE_SPACE then
            0 :: (scan cs ParserState.STATE_NON_SPACE (exec_argc + 1)).2.map (fun o => o + 1)
          else (scan cs ParserState.STATE_NON_SPACE exec_argc).2.map (fun o => o + 1))
      else
        (NUL :: (scan cs ParserState.STATE_SPACE exec_argc).1,
          (scan cs ParserState.STATE_SPACE exec_argc).2.map (fun o => o + 1))
    else (c :: cs, [])

/-- The strings found at the offsets `offs` of the split text `split`. -/
def tokens_of (r : List Char × List Nat) : List (List Char) :=
  r.2.map (fun off => cstr (r.1.drop off))

/-- The text the tokenizer scans: the string of the buffer without its last character, and
without the marker before it when the background flag is set. -/
def effective_text (buffer : List Char) : List Char :=
  buffer.take (strlen buffer - (run_in_background buffer).toNat - 1)

/-- The characters of `cs` up to the first whitespace: the rest of the word being read. -/
def word_rest (cs : List Char) : List Char :=
  cs.takeWhile (fun c => !isspace c)

/-- The characters of `cs` from the first whitespace on. -/
def after_word (cs : List Char) : List Char :=
  cs.dropWhile (fun c => !isspace c)
/-! ## Facts about C strings -/

theorem charAt_lt {l : List Char} {j : Nat} (h : j < l.length) : charAt l j = l[j] := by
  simp [charAt, List.getD_eq_getElem?_getD, List.getElem?_eq_getElem h]

theorem charAt_ge {l : List Char} {j : Nat} (h : l.length ≤ j) : charAt l j = NUL := by
  simp [charAt, List.getD_eq_getElem?_getD, List.getElem?_eq_none h]

theorem charAt_cons_zero (c : Char) (l : List Char) : charAt (c :: l) 0 = c := by
  simp [charAt]

theorem charAt_cons_succ (c : Char) (l : List Char) (j : Nat) :
    charAt (c :: l) (j + 1) = charAt l j := by
  simp [charAt]

theorem charAt_nil (j : Nat) : charAt [] j = NUL := by
  simp [charAt]

theorem charAt_drop (l : List Char) (off j : Nat) : charAt (l.drop off) j = charAt l (off + j) := by
  simp [charAt, List.getD_eq_getElem?_getD, List.getElem?_drop]

theorem charAt_set (l : List Char) (i j : Nat) (c : Char) :
    charAt (l.set i c) j = if i = j ∧ j < l.length then c else charAt l j := by
  by_cases hj : j < l.length
  · rw [charAt_lt (by simpa using hj), charAt_lt hj, List.getElem_set]
    by_cases hij : i = j <;> simp [hij, hj]
  · rw [charAt_ge (by simpa using hj), charAt_ge (by omega)]
    simp [hj]

theorem cstr_nil : cstr [] = [] := rfl

theorem cstr_cons (c : Char) (l : List Char) :
    cstr (c :: l) = if c = NUL then [] else c :: cstr l := by
  by_cases h : c = NUL <;> simp [cstr, List.takeWhile_cons, h]

theorem strlen_le (l : List Char) : strlen l ≤ l.length := by
  induction l with
  | nil => simp [strlen, cstr]
  | cons c l ih =>
    simp only [strlen, cstr_cons] at ih ⊢
    split
    · simp
    · simp; omega

theorem charAt_strlen (l : List Char) : charAt l (strlen l) = NUL := by
  induction l with
  | nil => simp [charAt]
  | cons c l ih =>
    simp only [strlen, cstr_cons] at ih ⊢
    split
    · next h => simpa [charAt] using h
    · simpa [charAt] using ih

theorem charAt_lt_strlen (l : List Char) : ∀ j, j < strlen l → charAt l j ≠ NUL := by
  induction l with
  | nil => intro j h; simp [strlen, cstr] at h
  | cons c l ih =>
    intro j h
    simp only [strlen, cstr_cons] at ih h
    split at h
    · simp at h
    · next hc =>
      cases j with
      | zero => simpa [charAt] using hc
      | succ j =>
        rw [charAt_cons_succ]
        exact ih j (by simpa using h)

theorem strlen_eq_of (l : List Char) (n : Nat) (h1 : ∀ j, j < n → charAt l j ≠ NUL)
    (h2 : charAt l n = NUL) : strlen l = n := by
  rcases Nat.lt_trichotomy (strlen l) n with h | h | h
  · exact absurd (charAt_strlen l) (h1 _ h)
  · exact h
  · exact absurd h2 (charAt_lt_strlen l n h)

theorem cstr_eq_take (l : List Char) : cstr l = l.take (strlen l) := by
  induction l with
  | nil => simp [cstr]
  | cons c l ih =>
    simp only [strlen, cstr_cons] at ih ⊢
    split
    · simp
    · simp [← ih]

theorem cstr_of_not_mem {l : List Char} (h : NUL ∉ l) : cstr l = l := by
  induction l with
  | nil => rfl
  | cons c l ih =>
    simp only [List.mem_cons, not_or] at h
    rw [cstr_cons, if_neg (fun hc => h.1 hc.symm), ih h.2]

theorem strlen_of_not_mem {l : List Char} (h : NUL ∉ l) : strlen l = l.length := by
  simp [strlen, cstr_of_not_mem h]

theorem not_mem_cstr (l : List Char) : NUL ∉ cstr l := by
  induction l with
  | nil => simp [cstr]
  | cons c l ih =>
    rw [cstr_cons]
    split
    · simp
    · next h =>
      simp only [List.mem_cons, not_or]
      exact ⟨fun hc => h hc.symm, ih⟩

theorem strncpy_of_line {l : List Char} (h1 : l.length ≤ 255) (h2 : NUL ∉ l) :
    strncpy l SHELL_BUFFER_SIZE = l := by
  rw [strncpy, cstr_of_not_mem h2]
  exact List.take_of_length_le (by simp [SHELL_BUFFER_SIZE]; omega)


/-! ## The tokenizer loop -/

/-- The loop always ends: `buffer.length + 1` tests of the loop condition are enough. -/
theorem tokenLoop_fuel : ∀ (fuel : Nat) (buffer : List Char) (i : Nat) (st : ParserState)
    (av : List Nat), buffer.length < fuel + i → 0 < fuel →
    (tokenLoop fuel buffer i st av).isSome = true := by
  intro fuel
  induction fuel with
  | zero => intro _ _ _ _ _ h; omega
  | succ fuel ih =>
    intro buffer i st av hlen _
    unfold tokenLoop
    split
    · next hc =>
      have hi : i < buffer.length := by
        by_contra hge
        exact hc.1 (charAt_ge (by omega))
      split
      · exact ih _ _ _ _ (by omega) (by omega)
      · exact ih _ _ _ _ (by simp; omega) (by omega)
    · rfl

theorem tokenize_isSome (buffer : List Char) : (tokenize buffer).isSome = true := by
  unfold tokenize
  apply tokenLoop_fuel
  · simp [cut]
  · omega

theorem take_drop_congr (a b : List Char) (off len : Nat)
    (h : ∀ j, j < len → a[off + j]? = b[off + j]?) :
    (a.drop off).take len = (b.drop off).take len := by
  apply List.ext_getElem?
  intro j
  by_cases hj : j < len
  · simp [List.getElem?_take, hj, List.getElem?_drop, h j hj]
  · simp [List.getElem?_take, hj]

theorem getElem?_eq_of_charAt {a b : List Char} {j : Nat} (h : charAt a j = charAt b j)
    (ha : j < a.length) (hb : j < b.length) : a[j]? = b[j]? := by
  rw [charAt_lt ha, charAt_lt hb] at h
  rw [List.getElem?_eq_getElem ha, List.getElem?_eq_getElem hb, h]

/-- The invariant of the tokenizer loop: the buffer keeps its length, every character is
either the original one or a terminator, and every argument starts before the position the
scan has reached, which lies inside the string of the original buffer. -/
theorem tokenLoop_inv (b0 : List Char) : ∀ (fuel : Nat) (b : List Char) (i : Nat)
    (st : ParserState) (av : List Nat) (b2 : List Char) (av2 : List Nat),
    tokenLoop fuel b i st av = some (b2, av2) →
    b.length = b0.length →
    (∀ j, charAt b j = charAt b0 j ∨ charAt b j = NUL) →
    (∀ j, j < i → charAt b0 j ≠ NUL) →
    (∀ off, off ∈ av → off < i) →
    b2.length = b0.length ∧ (∀ j, charAt b2 j = charAt b0 j ∨ charAt b2 j = NUL) ∧
      ∃ i2, (∀ j, j < i2 → charAt b0 j ≠ NUL) ∧ (∀ off, off ∈ av2 → off < i2) := by
  intro fuel
  induction fuel with
  | zero => intro b i st av b2 av2 h; simp [tokenLoop] at h
  | succ fuel ih =>
    intro b i st av b2 av2 h hlen h2 h4 h5
    unfold tokenLoop at h
    split at h
    · next hc =>
      have hb0 : charAt b0 i ≠ NUL := by
        rcases h2 i with e | e
        · rw [← e]; exact hc.1
        · exact absurd e hc.1
      have h4' : ∀ j, j < i + 1 → charAt b0 j ≠ NUL := by
        intro j hj
        rcases Nat.lt_succ_iff_lt_or_eq.mp hj with hlt | heq
        · exact h4 j hlt
        · rw [heq]; exact hb0
      split at h
      · refine ih _ _ _ _ _ _ h hlen h2 h4' ?_
        intro off hoff
        split at hoff
        · rcases List.mem_append.mp hoff with hm | hm
          · exact Nat.lt_succ_of_lt (h5 off hm)
          · simp at hm; omega
        · exact Nat.lt_succ_of_lt (h5 off hoff)
      · refine ih _ _ _ _ _ _ h (by simpa using hlen) ?_ h4' ?_
        · intro j
          rw [charAt_set]
          split
          · exact Or.inr rfl
          · exact h2 j
        · intro off hoff
          exact Nat.lt_succ_of_lt (h5 off hoff)
    · simp only [Option.some.injEq, Prod.mk.injEq] at h
      obtain ⟨rfl, rfl⟩ := h
      exact ⟨hlen, h2, i, h4, h5⟩

/-- An argument of the split buffer is a segment of the original string. -/
theorem token_segment (b0 b2 : List Char) (off i2 : Nat) (hlen : b2.length = b0.length)
    (h2 : ∀ j, charAt b2 j = charAt b0 j ∨ charAt b2 j = NUL)
    (h4 : ∀ j, j < i2 → charAt b0 j ≠ NUL) (hoff : off < i2) :
    off + (strAt b2 off).length ≤ strlen b0 ∧
      strAt b2 off = (b0.drop off).take (strAt b2 off).length := by
  have hnn : ∀ j, j < (strAt b2 off).length → charAt b2 (off + j) ≠ NUL := by
    intro j hj
    rw [← charAt_drop]
    exact charAt_lt_strlen _ j hj
  have hi2 : i2 ≤ strlen b0 := by
    by_contra hgt
    exact h4 (strlen b0) (by omega) (charAt_strlen b0)
  constructor
  · by_contra hgt
    have hk := hnn (strlen b0 - off) (by omega)
    have e : off + (strlen b0 - off) = strlen b0 := by omega
    rw [e] at hk
    rcases h2 (strlen b0) with e2 | e2
    · rw [charAt_strlen] at e2; exact hk e2
    · exact hk e2
  · have e1 : strAt b2 off = (b2.drop off).take (strAt b2 off).length := by
      unfold strAt
      rw [← strlen, ← cstr_eq_take]
    rw [e1]
    have e3 : ((b2.drop off).take (strAt b2 off).length).length = (strAt b2 off).length := by
      rw [← e1]
    rw [e3]
    apply take_drop_congr
    intro j hj
    have hne := hnn j hj
    have hin : off + j < b2.length := by
      by_contra hge
      exact hne (charAt_ge (by omega))
    rcases h2 (off + j) with e2 | e2
    · exact getElem?_eq_of_charAt e2 hin (by omega)
    · exact absurd e2 hne

theorem cut_index_lt (line : List Char) (h : strlen line ≠ 0) :
    strlen line - (run_in_background line).toNat - 1 < strlen line := by
  omega

theorem strlen_cut (line : List Char) (h : strlen line ≠ 0) :
    strlen (cut line) = strlen line - (run_in_background line).toNat - 1 := by
  have hlt := cut_index_lt line h
  have hle := strlen_le line
  apply strlen_eq_of
  · intro j hj
    unfold cut
    rw [charAt_set, if_neg (by omega)]
    exact charAt_lt_strlen line j (by omega)
  · unfold cut
    rw [charAt_set, if_pos ⟨rfl, by omega⟩]

/-- Every argument the tokenizer finds is a segment of the line that ends before the position
where line 116 wrote the terminator. -/
theorem tokenize_segments (line : List Char) (h : strlen line ≠ 0) :
    ∃ b2 av, tokenize line = some (b2, av) ∧ ∀ off, off ∈ av →
      off + (strAt b2 off).length ≤ strlen line - (run_in_background line).toNat - 1 ∧
      strAt b2 off = (line.drop off).take (strAt b2 off).length := by
  have hs := tokenize_isSome line
  obtain ⟨⟨b2, av⟩, hr⟩ := Option.isSome_iff_exists.mp hs
  refine ⟨b2, av, hr, ?_⟩
  intro off hoff
  have hinv := tokenLoop_inv (cut line) _ _ _ _ _ _ _ hr rfl (fun j => Or.inl rfl)
    (fun j hj => absurd hj (Nat.not_lt_zero j)) (fun off ho => by simp at ho)
  obtain ⟨hlen, h2, i2, h4, h5⟩ := hinv
  have hseg := token_segment (cut line) b2 off i2 hlen h2 h4 (h5 off hoff)
  rw [strlen_cut line h] at hseg
  refine ⟨hseg.1, ?_⟩
  rw [hseg.2]
  have e3 : (((cut line).drop off).take (strAt b2 off).length).length = (strAt b2 off).length := by
    rw [← hseg.2]
  rw [e3]
  apply take_drop_congr
  intro j hj
  unfold cut
  rw [List.getElem?_set]
  rw [if_neg]
  omega

/-! ## `parse_and_execute` and `main`, branch by branch -/

theorem tokenize_of_strlen_zero (buffer : List Char) (h : strlen buffer = 0) :
    tokenize buffer = some (cut buffer, []) := by
  have hc : charAt (cut buffer) 0 = NUL := by
    unfold cut
    rw [charAt_set, h]
    split
    · rfl
    · have := charAt_strlen buffer
      rwa [h] at this
  unfold tokenize tokenLoop
  simp [hc]

/-- With at least one argument found, `parse_and_execute` is the dispatch on `exec_argv[0]`. -/
theorem parse_and_execute_of_argv (buffer : List Char) (s : Shell) (env : Env)
    (arg0 : List Char) (args : List (List Char)) (h : argv_of buffer = some (arg0 :: args)) :
    strlen buffer ≠ 0 ∧
    parse_and_execute buffer s env =
      dispatch (strncpy buffer SHELL_BUFFER_SIZE) arg0 (arg0 :: args) (run_in_background buffer)
        s env := by
  have h0 : strlen buffer ≠ 0 := by
    intro hz
    rw [argv_of, tokenize_of_strlen_zero buffer hz] at h
    simp at h
  refine ⟨h0, ?_⟩
  unfold argv_of at h
  unfold parse_and_execute
  rw [if_neg h0]
  cases ht : tokenize buffer with
  | none => rw [ht] at h; simp at h
  | some r =>
    obtain ⟨b2, av⟩ := r
    rw [ht] at h
    cases av with
    | nil => simp at h
    | cons a0 rest =>
      simp only [Option.map_some', List.map_cons, Option.some.injEq, List.cons.injEq] at h
      simp only [List.map_cons]
      rw [h.1, h.2]

/-- A call that records nothing finds no argument. -/
theorem parse_and_execute_of_no_argv (buffer : List Char) (s : Shell) (env : Env)
    (h0 : strlen buffer ≠ 0) (h : argv_of buffer = some []) :
    parse_and_execute buffer s env = ([], Outcome.returned 0 s) := by
  unfold argv_of at h
  unfold parse_and_execute
  rw [if_neg h0]
  cases ht : tokenize buffer with
  | none => rw [ht] at h; simp at h
  | some r =>
    obtain ⟨b2, av⟩ := r
    rw [ht] at h
    cases av with
    | nil => rfl
    | cons a0 rest => simp at h

theorem argv_of_isSome (buffer : List Char) : ∃ args, argv_of buffer = some args := by
  obtain ⟨r, hr⟩ := Option.isSome_iff_exists.mp (tokenize_isSome buffer)
  exact ⟨r.2.map (strAt r.1), by simp [argv_of, hr]⟩

/-- The launcher either replaces the image, returns `-1` with the state untouched, or has no
defined behaviour (null `PATH`). -/
theorem search_path_outcome (cmd : List Char) (args : List (List Char)) (s : Shell) (env : Env) :
    (∃ p, (search_path cmd args s env).2 = Outcome.replaced p args) ∨
    (search_path cmd args s env).2 = Outcome.returned (-1) s ∨
    (search_path cmd args s env).2 = Outcome.undefined := by
  unfold search_path
  split
  · exact Or.inr (Or.inr rfl)
  · split
    · split
      · exact Or.inl ⟨_, rfl⟩
      · exact Or.inr (Or.inl rfl)
    · exact Or.inr (Or.inl rfl)

theorem imthechild_outcome (path : List Char) (args : List (List Char)) (s : Shell) (env : Env) :
    (∃ p, (imthechild path args s env).2 = Outcome.replaced p args) ∨
    (imthechild path args s env).2 = Outcome.returned (-1) s ∨
    (imthechild path args s env).2 = Outcome.undefined := by
  unfold imthechild
  split
  · split
    · exact Or.inl ⟨_, rfl⟩
    · exact Or.inr (Or.inl rfl)
  · exact search_path_outcome path args s env

/-- The three ways `dispatch` can return: state untouched, state of a new subshell, or the
line recorded. -/
theorem dispatch_returned (orig arg0 : List Char) (args : List (List Char)) (bg : Bool)
    (s s1 : Shell) (env : Env) (r : Int)
    (h : (dispatch orig arg0 args bg s env).2 = Outcome.returned r s1) :
    s1 = s ∨ (s1 = subshell s ∧ s.shell_nesting_level < MAX_SHELL_NESTING - 1) ∨
      s1 = record s orig := by
  unfold dispatch at h
  split at h
  · simp at h
  · split at h
    · simp only [Outcome.returned.injEq] at h
      exact Or.inr (Or.inr h.2.symm)
    · split at h
      · simp only [Outcome.returned.injEq] at h
        exact Or.inr (Or.inr h.2.symm)
      · split at h
        · split at h
          · simp only [Outcome.returned.injEq] at h
            exact Or.inr (Or.inr h.2.symm)
          · next hlev =>
            split at h
            · simp only [Outcome.returned.injEq] at h
              exact Or.inl h.2.symm
            · simp only [Outcome.returned.injEq] at h
              exact Or.inr (Or.inl ⟨h.2.symm, Nat.lt_of_not_ge hlev⟩)
            · simp only [Outcome.returned.injEq] at h
              exact Or.inr (Or.inr h.2.symm)
        · split at h
          · simp only [Outcome.returned.injEq] at h
            exact Or.inl h.2.symm
          · simp only at h
            rcases imthechild_outcome arg0 args s env with ⟨p, hp⟩ | hp | hp
            · rw [hp] at h; simp at h
            · rw [hp] at h
              simp only [Outcome.returned.injEq] at h
              exact Or.inl h.2.symm
            · rw [hp] at h; simp at h
          · simp only [Outcome.returned.injEq] at h
            exact Or.inr (Or.inr h.2.symm)

/-- The three ways `parse_and_execute` can return; a line is recorded only when it is not
empty and the tokenizer found an argument in it. -/
theorem parse_and_execute_returned (buffer : List Char) (s s1 : Shell) (env : Env) (r : Int)
    (h : (parse_and_execute buffer s env).2 = Outcome.returned r s1) :
    s1 = s ∨ (s1 = subshell s ∧ s.shell_nesting_level < MAX_SHELL_NESTING - 1) ∨
      (s1 = record s (strncpy buffer SHELL_BUFFER_SIZE) ∧ strlen buffer ≠ 0 ∧
        ∃ arg0 args, argv_of buffer = some (arg0 :: args)) := by
  obtain ⟨args, hargs⟩ := argv_of_isSome buffer
  by_cases h0 : strlen buffer = 0
  · simp [parse_and_execute, h0] at h
  · cases args with
    | nil =>
      rw [parse_and_execute_of_no_argv buffer s env h0 hargs] at h
      simp only [Outcome.returned.injEq] at h
      exact Or.inl h.2.symm
    | cons arg0 args =>
      rw [(parse_and_execute_of_argv buffer s env arg0 args hargs).2] at h
      rcases dispatch_returned _ _ _ _ _ _ _ _ h with e | e | e
      · exact Or.inl e
      · exact Or.inr (Or.inl e)
      · exact Or.inr (Or.inr ⟨e, h0, arg0, args, hargs⟩)

theorem record_counter (s : Shell) (line : List Char) :
    (record s line).command_counter = s.command_counter + 1 := rfl

theorem record_level (s : Shell) (line : List Char) :
    (record s line).shell_nesting_level = s.shell_nesting_level := rfl

theorem record_slot (s : Shell) (line : List Char) :
    (record s line).cmd_history (slotOf s.command_counter) = strncpy line SHELL_BUFFER_SIZE := by
  simp [record, slotOf]

theorem record_other (s : Shell) (line : List Char) (i : Fin 10)
    (h : i ≠ slotOf s.command_counter) :
    (record s line).cmd_history i = s.cmd_history i := by
  have : i.val ≠ s.command_counter % HISTORY_SIZE := by
    intro e
    apply h
    apply Fin.ext
    simpa [slotOf] using e
  simp [record, this]

/-! ## The background marker -/

theorem run_in_background_iff (line : List Char) :
    run_in_background line = true ↔
      strlen line > 2 ∧ charAt line (strlen line - 2) = '&' := by
  simp [run_in_background]

/-- Every string of the argument vector is a segment of the line that ends before the
position where line 116 wrote the terminator. -/
theorem argv_segments (line : List Char) (h : strlen line ≠ 0) :
    ∃ args, argv_of line = some args ∧ ∀ t, t ∈ args → ∃ off,
      off + t.length ≤ strlen line - (run_in_background line).toNat - 1 ∧
      t = (line.drop off).take t.length := by
  obtain ⟨b2, av, ht, hseg⟩ := tokenize_segments line h
  refine ⟨av.map (strAt b2), by simp [argv_of, ht], ?_⟩
  intro t hmem
  obtain ⟨off, hoff, rfl⟩ := List.mem_map.mp hmem
  exact ⟨off, hseg off hoff⟩

theorem charAt_append_left (a b : List Char) (j : Nat) (h : j < a.length) :
    charAt (a ++ b) j = charAt a j := by
  rw [charAt_lt (by simp; omega), charAt_lt h, List.getElem_append_left h]

theorem charAt_append_right (a b : List Char) (j : Nat) :
    charAt (a ++ b) (a.length + j) = charAt b j := by
  simp [charAt, List.getD_eq_getElem?_getD, List.getElem?_append_right]

theorem take_drop_append_left (a b : List Char) (off len : Nat) (h : off + len ≤ a.length) :
    ((a ++ b).drop off).take len = (a.drop off).take len := by
  apply take_drop_congr
  intro j hj
  rw [List.getElem?_append_left (by omega)]

/-! ## What `parse_and_execute` never prints -/

theorem search_loop_events (cmd : List Char) (env : Env) (dirs : List (List Char)) :
    ∀ e, e ∈ (search_loop cmd env dirs).1 → ∃ p, e = Event.access p := by
  induction dirs with
  | nil => intro e he; simp [search_loop] at he
  | cons d ds ih =>
    intro e he
    unfold search_loop at he
    split at he
    · simp only [List.mem_singleton] at he
      exact ⟨_, he⟩
    · rcases List.mem_cons.mp he with h | h
      · exact ⟨_, h⟩
      · exact ih e h

/-- The child side of a launch only calls `access` and `execv` and prints the
"does not exist" message. -/
theorem imthechild_events (path : List Char) (args : List (List Char)) (s : Shell) (env : Env) :
    ∀ e, e ∈ (imthechild path args s env).1 →
      (∃ p, e = Event.access p) ∨ (∃ p a, e = Event.execv p a) ∨ (∃ c, e = Event.notExist c) := by
  intro e he
  unfold imthechild at he
  split at he
  · split at he
    · simp only [List.mem_singleton] at he
      exact Or.inr (Or.inl ⟨_, _, he⟩)
    · simp only [List.mem_singleton] at he
      exact Or.inr (Or.inl ⟨_, _, he⟩)
  · unfold search_path at he
    split at he
    · simp at he
    · next path_copy _ =>
      have hl := search_loop_events path env (strtok_fields ':' path_copy [])
      split at he
      · next evs found heq =>
        rw [heq] at hl
        have he2 : e ∈ evs ++ [Event.execv found args] := by
          split at he <;> exact he
        rcases List.mem_append.mp he2 with h | h
        · exact Or.inl (hl e h)
        · simp only [List.mem_singleton] at h
          exact Or.inr (Or.inl ⟨_, _, h⟩)
      · next evs heq =>
        rw [heq] at hl
        rcases List.mem_append.mp he with h | h
        · exact Or.inl (hl e h)
        · simp only [List.mem_singleton] at h
          exact Or.inr (Or.inr ⟨_, h⟩)

theorem imtheparent_events (pid : Nat) (bg : Bool) (env : Env) :
    ∀ e, e ∈ imtheparent pid bg env →
      e = Event.forked pid ∨ e = Event.notWaiting ∨ e = Event.waitpid pid ∨
        e = Event.finished pid ∨ e = Event.childFailed pid env.wait_status := by
  intro e he
  unfold imtheparent at he
  split at he
  · simp only [List.mem_cons, List.mem_singleton, List.not_mem_nil, or_false] at he
    rcases he with h | h
    · exact Or.inl h
    · exact Or.inr (Or.inl h)
  · split at he
    · simp only [List.cons_append, List.nil_append, List.mem_cons, List.mem_singleton,
        List.not_mem_nil, or_false] at he
      rcases he with h | h | h | h
      · exact Or.inl h
      · exact Or.inr (Or.inr (Or.inl h))
      · exact Or.inr (Or.inr (Or.inr (Or.inl h)))
      · exact Or.inr (Or.inr (Or.inr (Or.inr h)))
    · simp only [List.append_nil, List.mem_cons, List.mem_singleton, List.not_mem_nil,
        or_false] at he
      rcases he with h | h | h
      · exact Or.inl h
      · exact Or.inr (Or.inr (Or.inl h))
      · exact Or.inr (Or.inr (Or.inr (Or.inl h)))

theorem history_listing_events (s : Shell) :
    ∀ e, e ∈ history_listing s → ∃ i t, e = Event.listing i t := by
  intro e he
  unfold history_listing at he
  obtain ⟨i, _, hi⟩ := List.mem_map.mp he
  exact ⟨_, _, hi.symm⟩

theorem dispatch_events (orig arg0 : List Char) (args : List (List Char)) (bg : Bool)
    (s : Shell) (env : Env) :
    ∀ e, e ∈ (dispatch orig arg0 args bg s env).1 → dispatch_event e := by
  intro e he
  have hpar : ∀ pid, e ∈ Event.fork :: imtheparent pid bg env → dispatch_event e := by
    intro pid h
    rcases List.mem_cons.mp h with h | h
    · rw [h]; trivial
    · rcases imtheparent_events pid bg env e h with h | h | h | h | h <;> (rw [h]; trivial)
  unfold dispatch at he
  split at he
  · simp only [List.mem_singleton] at he
    rw [he]; trivial
  · split at he
    · obtain ⟨i, t, h⟩ := history_listing_events _ e he
      rw [h]; trivial
    · split at he
      · rcases List.mem_cons.mp he with h | h
        · rw [h]; trivial
        · split at h
          · simp at h
          · simp only [List.mem_singleton] at h
            rw [h]; trivial
      · split at he
        · split at he
          · simp only [List.mem_singleton] at he
            rw [he]; trivial
          · split at he
            · simp only [List.mem_cons, List.mem_singleton, List.not_mem_nil, or_false] at he
              rcases he with h | h <;> (rw [h]; trivial)
            · simp only [List.mem_singleton] at he
              rw [he]; trivial
            · exact hpar _ he
        · split at he
          · simp only [List.mem_cons, List.mem_singleton, List.not_mem_nil, or_false] at he
            rcases he with h | h <;> (rw [h]; trivial)
          · rcases List.mem_cons.mp he with h | h
            · rw [h]; trivial
            · rcases imthechild_events arg0 args s env e h with ⟨p, h⟩ | ⟨p, a, h⟩ | ⟨c, h⟩ <;>
                (rw [h]; trivial)
          · exact hpar _ he

theorem parse_and_execute_events (buffer : List Char) (s : Shell) (env : Env) :
    ∀ e, e ∈ (parse_and_execute buffer s env).1 → dispatch_event e := by
  intro e he
  obtain ⟨args, hargs⟩ := argv_of_isSome buffer
  by_cases h0 : strlen buffer = 0
  · simp [parse_and_execute, h0] at he
  · cases args with
    | nil =>
      rw [parse_and_execute_of_no_argv buffer s env h0 hargs] at he
      simp at he
    | cons arg0 args =>
      rw [(parse_and_execute_of_argv buffer s env arg0 args hargs).2] at he
      exact dispatch_events _ _ _ _ _ _ e he

theorem notValid_not_mem_parse_and_execute (buffer : List Char) (s : Shell) (env : Env) :
    Event.notValid ∉ (parse_and_execute buffer s env).1 := by
  intro h
  exact parse_and_execute_events buffer s env _ h

/-! ## The history ring -/

/-- A call after which the counter is one more than before recorded its line. -/
theorem recorded_step (line : List Char) (s s1 : Shell) (env : Env) (r : Int)
    (h : (parse_and_execute line s env).2 = Outcome.returned r s1)
    (hc : s1.command_counter = s.command_counter + 1) :
    s1 = record s (strncpy line SHELL_BUFFER_SIZE) ∧ strlen line ≠ 0 ∧
      ∃ arg0 args, argv_of line = some (arg0 :: args) := by
  rcases parse_and_execute_returned line s s1 env r h with e | e | e
  · rw [e] at hc; omega
  · rw [e.1] at hc; simp [subshell] at hc
  · exact e

theorem run_recorded_cons (s s2 : Shell) (line : List Char) (env : Env)
    (rest : List (List Char × Env)) (h : run_recorded s ((line, env) :: rest) = some s2) :
    run_recorded (record s (strncpy line SHELL_BUFFER_SIZE)) rest = some s2 ∧
      strlen line ≠ 0 := by
  unfold run_recorded at h
  split at h
  · next r s1 hout =>
    split at h
    · next hc =>
      obtain ⟨e, h0, _⟩ := recorded_step line s s1 env r hout hc
      rw [e] at h
      exact ⟨h, h0⟩
    · simp at h
  · simp at h

/-- The ring after a run of recorded commands that starts in `s0`: the counter has advanced by
the number of commands, a slot holds the last command written to it, and a slot no command
was written to is as before. -/
theorem run_recorded_spec : ∀ (cmds : List (List Char × Env)) (s0 s : Shell),
    (∀ c, c ∈ cmds → fgets_line c.1) → run_recorded s0 cmds = some s →
    s.command_counter = s0.command_counter + cmds.length ∧
    s.shell_nesting_level = s0.shell_nesting_level ∧
    (∀ c, c ∈ cmds → strlen c.1 ≠ 0) ∧
    ∀ i : Fin 10,
      (∀ j, j < cmds.length → (s0.command_counter + j) % 10 = i.val →
        (∀ j2, j2 < cmds.length → (s0.command_counter + j2) % 10 = i.val → j2 ≤ j) →
        (cmds[j]?).map Prod.fst = some (s.cmd_history i)) ∧
      ((∀ j, j < cmds.length → (s0.command_counter + j) % 10 ≠ i.val) →
        s.cmd_history i = s0.cmd_history i) := by
  intro cmds
  induction cmds with
  | nil =>
    intro s0 s _ h
    simp only [run_recorded, Option.some.injEq] at h
    subst h
    refine ⟨rfl, rfl, by simp, fun i => ⟨?_, fun _ => rfl⟩⟩
    intro j hj
    simp at hj
  | cons c rest ih =>
    intro s0 s hl h
    obtain ⟨line, env⟩ := c
    obtain ⟨hrun, h0⟩ := run_recorded_cons s0 s line env rest h
    have hline : fgets_line line := hl (line, env) (List.mem_cons_self _ _)
    rw [strncpy_of_line hline.1 hline.2] at hrun
    obtain ⟨hc, hlev, hne, hslots⟩ :=
      ih (record s0 line) s (fun c hc => hl c (List.mem_cons_of_mem _ hc)) hrun
    rw [record_counter] at hc
    refine ⟨by simp only [List.length_cons]; omega, hlev, ?_, ?_⟩
    · intro c hc
      rcases List.mem_cons.mp hc with e | e
      · rw [e]; exact h0
      · exact hne c e
    · intro i
      obtain ⟨hs1, hs2⟩ := hslots i
      simp only [record_counter] at hs1 hs2
      constructor
      · intro j hj hhit hmax
        cases j with
        | zero =>
          simp only [List.getElem?_cons_zero, Option.map_some', Option.some.injEq]
          have hnone : ∀ j, j < rest.length → (s0.command_counter + 1 + j) % 10 ≠ i.val := by
            intro j2 hj2 hh
            have := hmax (j2 + 1) (by simp only [List.length_cons]; omega)
              (by rw [← hh]; congr 1; omega)
            omega
          rw [hs2 hnone]
          have hi : i = slotOf s0.command_counter := by
            apply Fin.ext
            simp only [slotOf, HISTORY_SIZE]
            simpa using hhit.symm
          rw [hi, record_slot, strncpy_of_line hline.1 hline.2]
        | succ j0 =>
          simp only [List.getElem?_cons_succ]
          apply hs1 j0 (by simpa using hj) (by rw [← hhit]; congr 1; omega)
          intro j2 hj2 hh
          have := hmax (j2 + 1) (by simp only [List.length_cons]; omega)
            (by rw [← hh]; congr 1; omega)
          omega
      · intro hno
        have hnone : ∀ j, j < rest.length → (s0.command_counter + 1 + j) % 10 ≠ i.val := by
          intro j2 hj2 hh
          exact hno (j2 + 1) (by simp only [List.length_cons]; omega)
            (by rw [← hh]; congr 1; omega)
        rw [hs2 hnone]
        apply record_other
        intro hi
        apply hno 0 (by simp)
        rw [hi]
        simp [slotOf, HISTORY_SIZE]

/-! ## One iteration of `main` -/

theorem after_call_continue (o : Outcome) (s1 : Shell) (h : after_call o = Loop.continue s1) :
    ∃ r, o = Outcome.returned r s1 := by
  cases o with
  | returned r s =>
    simp only [after_call, Loop.continue.injEq] at h
    exact ⟨r, by rw [h]⟩
  | exited c => simp [after_call] at h
  | replaced p a => simp [after_call] at h
  | undefined => simp [after_call] at h
  | outOfFuel => simp [after_call] at h

/-- When the loop goes on after a line, the state is the old one, the state of a new subshell
(only below the nesting bound), or the old one with one line recorded: the line read, or the
text of a slot below the counter for a replay. -/
theorem main_iteration_continue (s s1 : Shell) (line : List Char) (env : Env)
    (h : (main_iteration s (some line) env).2 = Loop.continue s1) :
    s1 = s ∨ (s1 = subshell s ∧ s.shell_nesting_level < MAX_SHELL_NESTING - 1) ∨
      ∃ b, (b = line ∨ ∃ i : Fin 10, i.val < s.command_counter ∧
              b = strncpy (s.cmd_history i) SHELL_BUFFER_SIZE) ∧
        s1 = record s (strncpy b SHELL_BUFFER_SIZE) ∧ strlen b ≠ 0 ∧
        ∃ arg0 args, argv_of b = some (arg0 :: args) := by
  unfold main_iteration at h
  simp only at h
  split at h
  · split at h
    · simp at h
    · next N _ =>
      split at h
      · next h10 =>
        split at h
        · simp only [Loop.continue.injEq] at h
          exact Or.inl h.symm
        · next hc =>
          obtain ⟨r, hr⟩ := after_call_continue _ _ h
          rcases parse_and_execute_returned _ s s1 env r hr with e | e | e
          · exact Or.inl e
          · exact Or.inr (Or.inl e)
          · refine Or.inr (Or.inr ⟨_, Or.inr ⟨⟨N, h10⟩, ?_, rfl⟩, e⟩)
            simp only [not_or] at hc
            exact Nat.lt_of_not_ge hc.1
      · simp only [Loop.continue.injEq] at h
        exact Or.inl h.symm
  · obtain ⟨r, hr⟩ := after_call_continue _ _ h
    rcases parse_and_execute_returned _ s s1 env r hr with e | e | e
    · exact Or.inl e
    · exact Or.inr (Or.inl e)
    · exact Or.inr (Or.inr ⟨_, Or.inl rfl, e⟩)

/-- No reachable shell instance is nested deeper than `MAX_SHELL_NESTING - 1`. -/
theorem reachable_level (s : Shell) (h : Reachable s) :
    s.shell_nesting_level ≤ MAX_SHELL_NESTING - 1 := by
  induction h with
  | start g => simp [fresh]
  | step s s1 line env _ _ hstep ih =>
    rcases main_iteration_continue s s1 line env hstep with e | e | ⟨b, _, e, _⟩
    · rw [e]; exact ih
    · rw [e.1]
      have := e.2
      simp only [subshell]
      omega
    · rw [e, record_level]; exact ih

/-- The fuel given to the tokenizer loop always suffices: `parse_and_execute` never ends for
lack of fuel. -/
theorem parse_and_execute_fuel (buffer : List Char) (s : Shell) (env : Env) :
    (parse_and_execute buffer s env).2 ≠ Outcome.outOfFuel := by
  obtain ⟨args, hargs⟩ := argv_of_isSome buffer
  by_cases h0 : strlen buffer = 0
  · simp [parse_and_execute, h0]
  · cases args with
    | nil =>
      rw [parse_and_execute_of_no_argv buffer s env h0 hargs]
      simp
    | cons arg0 args =>
      rw [(parse_and_execute_of_argv buffer s env arg0 args hargs).2]
      unfold dispatch
      split
      · simp
      · split
        · simp
        · split
          · simp
          · split
            · split
              · simp
              · split <;> simp
            · split
              · simp
              · rcases imthechild_outcome arg0 (arg0 :: args) s env with ⟨p, hp⟩ | hp | hp <;>
                  simp [hp]
              · simp

/-- In the child of a fork whose launch fails, the loop of `main` goes on with the state it
had. -/
theorem failed_launch_continues (line arg0 : List Char) (args : List (List Char)) (s : Shell)
    (env : Env) (hrep : is_replay line = false) (h : argv_of line = some (arg0 :: args))
    (h1 : arg0 ≠ "exit".toList) (h2 : arg0 ≠ "!!".toList) (h3 : arg0 ≠ "cd".toList)
    (h4 : arg0 ≠ "shell".toList) (hf : env.fork = ForkResult.child)
    (hfail : (imthechild arg0 (arg0 :: args) s env).2 = Outcome.returned (-1) s) :
    (main_iteration s (some line) env).2 = Loop.continue s := by
  unfold main_iteration
  simp only [hrep, Bool.false_eq_true, if_false]
  rw [(parse_and_execute_of_argv line s env arg0 args h).2, dispatch]
  rw [if_neg h1, if_neg h2, if_neg (fun hc => h3 hc.1), if_neg h4, hf]
  simp only [hfail, after_call]

/-! ## The invariant of the ring and the slots that are never read -/

theorem ring_valid_record (s : Shell) (b : List Char) (hv : ring_valid s)
    (hb : fgets_line b) (h0 : strlen b ≠ 0)
    (ha : ∃ arg0 args, argv_of b = some (arg0 :: args)) :
    ring_valid (record s (strncpy b SHELL_BUFFER_SIZE)) := by
  intro i hi
  rw [record_counter] at hi
  have hbs : strncpy b SHELL_BUFFER_SIZE = b := strncpy_of_line hb.1 hb.2
  by_cases hslot : i = slotOf s.command_counter
  · rw [hslot, record_slot, hbs, hbs]
    refine ⟨hb, ?_, ha⟩
    intro e
    rw [e] at h0
    exact h0 rfl
  · rw [record_other s _ i hslot]
    apply hv i
    have hne : i.val ≠ s.command_counter % 10 := by
      intro e
      apply hslot
      apply Fin.ext
      simpa [slotOf, HISTORY_SIZE] using e
    have := i.isLt
    omega

/-- In every reachable state the ring is valid. -/
theorem reachable_ring_valid (s : Shell) (h : Reachable s) : ring_valid s := by
  induction h with
  | start g =>
    intro i hi
    simp [fresh] at hi
  | step s s1 line env _ hline hstep ih =>
    rcases main_iteration_continue s s1 line env hstep with e | e | ⟨b, hb, e, h0, ha⟩
    · rw [e]; exact ih
    · rw [e.1]
      intro i hi
      simp [subshell] at hi
    · rw [e]
      rcases hb with hb | ⟨i, hi, hb⟩
      · rw [hb] at h0 ha ⊢
        exact ring_valid_record s line ih hline h0 ha
      · have hvi := ih i hi
        have hbs : b = s.cmd_history i := by
          rw [hb, strncpy_of_line hvi.1.1 hvi.1.2]
        rw [hbs] at h0 ha ⊢
        exact ring_valid_record s _ ih hvi.1 h0 ha

theorem same_below_counter_record (s t : Shell) (o : List Char)
    (h : same_below_counter s t) : same_below_counter (record s o) (record t o) := by
  obtain ⟨hc, hlev, hs⟩ := h
  refine ⟨by simp [record_counter, hc], by simp [record_level, hlev], ?_⟩
  intro i hi
  rw [record_counter] at hi
  by_cases hslot : i.val = s.command_counter % HISTORY_SIZE
  · simp [record, hslot, ← hc]
  · have hlt : i.val < s.command_counter := by
      have := i.isLt
      simp only [HISTORY_SIZE] at hslot
      omega
    simp [record, hslot, ← hc, hs i hlt]

theorem history_listing_same (s t : Shell) (h : same_below_counter s t) :
    history_listing s = history_listing t := by
  obtain ⟨hc, _, hs⟩ := h
  unfold history_listing
  rw [← hc]
  apply List.map_congr_left
  intro i hi
  have hi2 : i < min HISTORY_SIZE s.command_counter := List.mem_range.mp hi
  have hlt : (slotOf (s.command_counter - i - 1)).val < s.command_counter := by
    have hmod : (s.command_counter - i - 1) % 10 ≤ s.command_counter - i - 1 :=
      Nat.mod_le _ _
    simp only [slotOf, HISTORY_SIZE]
    omega
  rw [hs _ hlt]

theorem imthechild_same (path : List Char) (args : List (List Char)) (s t : Shell) (env : Env)
    (h : same_below_counter s t) :
    (imthechild path args s env).1 = (imthechild path args t env).1 ∧
      Outcome.same (imthechild path args s env).2 (imthechild path args t env).2 := by
  unfold imthechild
  split
  · split
    · exact ⟨rfl, rfl, rfl⟩
    · exact ⟨rfl, rfl, h⟩
  · unfold search_path
    split
    · exact ⟨rfl, trivial⟩
    · split
      · split
        · exact ⟨rfl, rfl, rfl⟩
        · exact ⟨rfl, rfl, h⟩
      · exact ⟨rfl, rfl, h⟩

theorem dispatch_same (orig arg0 : List Char) (args : List (List Char)) (bg : Bool)
    (s t : Shell) (env : Env) (h : same_below_counter s t) :
    (dispatch orig arg0 args bg s env).1 = (dispatch orig arg0 args bg t env).1 ∧
      Outcome.same (dispatch orig arg0 args bg s env).2 (dispatch orig arg0 args bg t env).2 := by
  have hrec := same_below_counter_record s t orig h
  have hlist := history_listing_same _ _ hrec
  have hsub : same_below_counter (subshell s) (subshell t) :=
    ⟨rfl, by simp [subshell, h.2.1], fun _ _ => rfl⟩
  have hchild := imthechild_same arg0 args s t env h
  unfold dispatch
  rw [← h.2.1]
  split
  · exact ⟨rfl, rfl⟩
  · split
    · exact ⟨hlist, rfl, hrec⟩
    · split
      · exact ⟨rfl, rfl, hrec⟩
      · split
        · split
          · exact ⟨rfl, rfl, hrec⟩
          · split
            · exact ⟨rfl, rfl, h⟩
            · exact ⟨rfl, rfl, hsub⟩
            · exact ⟨rfl, rfl, hrec⟩
        · split
          · exact ⟨rfl, rfl, h⟩
          · exact ⟨by rw [hchild.1], hchild.2⟩
          · exact ⟨rfl, rfl, hrec⟩

theorem parse_and_execute_same (buffer : List Char) (s t : Shell) (env : Env)
    (h : same_below_counter s t) :
    (parse_and_execute buffer s env).1 = (parse_and_execute buffer t env).1 ∧
      Outcome.same (parse_and_execute buffer s env).2 (parse_and_execute buffer t env).2 := by
  obtain ⟨args, hargs⟩ := argv_of_isSome buffer
  by_cases h0 : strlen buffer = 0
  · simp [parse_and_execute, h0, Outcome.same]
  · cases args with
    | nil =>
      rw [parse_and_execute_of_no_argv buffer s env h0 hargs,
        parse_and_execute_of_no_argv buffer t env h0 hargs]
      exact ⟨rfl, rfl, h⟩
    | cons arg0 args =>
      rw [(parse_and_execute_of_argv buffer s env arg0 args hargs).2,
        (parse_and_execute_of_argv buffer t env arg0 args hargs).2]
      exact dispatch_same _ _ _ _ _ _ _ h

theorem after_call_same (o1 o2 : Outcome) (h : Outcome.same o1 o2) :
    Loop.same (after_call o1) (after_call o2) := by
  cases o1 <;> cases o2 <;> simp_all [Outcome.same, Loop.same, after_call]

/-- One iteration of `main` never reads a slot at or above the counter: two states that
differ only there produce the same events and end the same way. -/
theorem main_iteration_same (s t : Shell) (input : Option (List Char)) (env : Env)
    (h : same_below_counter s t) :
    (main_iteration s input env).1 = (main_iteration t input env).1 ∧
      Loop.same (main_iteration s input env).2 (main_iteration t input env).2 := by
  obtain ⟨hc, hlev, hs⟩ := h
  have h' : same_below_counter s t := ⟨hc, hlev, hs⟩
  unfold main_iteration
  rw [← hc, ← hlev]
  cases input with
  | none => exact ⟨rfl, rfl⟩
  | some buffer =>
    simp only
    split
    · split
      · exact ⟨rfl, trivial⟩
      · next N _ =>
        split
        · next h10 =>
          by_cases hN : N ≥ s.command_counter
          · rw [if_pos (Or.inl hN), if_pos (Or.inl hN)]
            exact ⟨rfl, h'⟩
          · have hslot : t.cmd_history ⟨N, h10⟩ = s.cmd_history ⟨N, h10⟩ :=
              (hs ⟨N, h10⟩ (Nat.lt_of_not_ge hN)).symm
            rw [hslot]
            split
            · exact ⟨rfl, h'⟩
            · have hp := parse_and_execute_same
                (strncpy (s.cmd_history ⟨N, h10⟩) SHELL_BUFFER_SIZE) s t env h'
              exact ⟨by rw [hp.1], after_call_same _ _ hp.2⟩
        · exact ⟨rfl, h'⟩
    · have hp := parse_and_execute_same buffer s t env h'
      exact ⟨by rw [hp.1], after_call_same _ _ hp.2⟩

/-! ## The tokenizer and the reference splitter -/

theorem charAt_mid (pre rest : List Char) (c : Char) :
    charAt (pre ++ c :: rest) pre.length = c := by
  have h := charAt_append_right pre (c :: rest) 0
  simpa [charAt_cons_zero] using h

theorem set_mid (pre rest : List Char) (c d : Char) :
    (pre ++ c :: rest).set pre.length d = pre ++ d :: rest := by
  induction pre with
  | nil => rfl
  | cons p ps ih => simp [ih]

/-- The loop of `parse_and_execute`, started at the end of `pre` on the text `rest` that is
followed by a terminator, does what `scan` tells. -/
theorem tokenLoop_scan (junk : List Char) : ∀ (rest pre : List Char) (st : ParserState)
    (av : List Nat) (fuel : Nat), NUL ∉ rest → rest.length < fuel →
    tokenLoop fuel (pre ++ (rest ++ NUL :: junk)) pre.length st av =
      some (pre ++ ((scan rest st av.length).1 ++ NUL :: junk),
        av ++ (scan rest st av.length).2.map (fun o => o + pre.length)) := by
  intro rest
  induction rest with
  | nil =>
    intro pre st av fuel _ hf
    cases fuel with
    | zero => omega
    | succ fuel =>
      unfold tokenLoop
      simp [scan, charAt_mid]
  | cons c cs ih =>
    intro pre st av fuel hnul hf
    simp only [List.mem_cons, not_or] at hnul
    have hc : c ≠ NUL := fun e => hnul.1 e.symm
    cases fuel with
    | zero => omega
    | succ fuel =>
      have hf2 : cs.length < fuel := by simpa using hf
      unfold tokenLoop
      simp only [List.cons_append, charAt_mid]
      by_cases hargc : av.length < SHELL_MAX_ARGS
      · rw [if_pos ⟨hc, hargc⟩]
        have e1 : pre ++ c :: (cs ++ NUL :: junk) = (pre ++ [c]) ++ (cs ++ NUL :: junk) := by
          simp
        have l1 : pre.length + 1 = (pre ++ [c]).length := by simp
        by_cases hsp : isspace c = true
        · simp only [hsp, Bool.not_true, Bool.false_eq_true, if_false]
          rw [set_mid]
          have e2 : pre ++ NUL :: (cs ++ NUL :: junk) = (pre ++ [NUL]) ++ (cs ++ NUL :: junk) := by
            simp
          have l2 : pre.length + 1 = (pre ++ [NUL]).length := by simp
          rw [e2, l2, ih (pre ++ [NUL]) _ av fuel hnul.2 hf2]
          simp only [scan, hargc, if_true, hsp, Bool.not_true, Bool.false_eq_true, if_false,
            List.map_map]
          simp only [List.append_assoc, List.singleton_append, List.length_append,
            List.length_singleton, Option.some.injEq, Prod.mk.injEq, true_and,
            List.append_cancel_left_eq]
          refine ⟨rfl, ?_⟩
          apply List.map_congr_left
          intro o _
          simp only [Function.comp]
          omega
        · have hsp2 : isspace c = false := by simpa using hsp
          simp only [hsp2, Bool.not_false, if_true]
          rw [e1, l1]
          by_cases hst : st = ParserState.STATE_SPACE
          · simp only [hst, if_true]
            rw [ih (pre ++ [c]) _ (av ++ [pre.length]) fuel hnul.2 hf2]
            simp only [scan, hargc, if_true, hsp2, Bool.not_false, List.map_map,
              List.length_append, List.length_singleton, List.map_cons]
            simp only [List.append_assoc, List.singleton_append, Option.some.injEq,
              Prod.mk.injEq, true_and, List.append_cancel_left_eq, Nat.zero_add,
              List.cons.injEq]
            refine ⟨rfl, ?_⟩
            apply List.map_congr_left
            intro o _
            simp only [Function.comp]
            omega
          · simp only [hst, if_false]
            rw [ih (pre ++ [c]) _ av fuel hnul.2 hf2]
            simp only [scan, hargc, if_true, hsp2, Bool.not_false, hst, if_false, List.map_map]
            simp only [List.append_assoc, List.singleton_append, List.length_append,
              List.length_singleton, Option.some.injEq, Prod.mk.injEq, true_and,
              List.append_cancel_left_eq]
            refine ⟨rfl, ?_⟩
            apply List.map_congr_left
            intro o _
            simp only [Function.comp]
            omega
      · rw [if_neg (fun h => hargc h.2)]
        simp [scan, hargc]

theorem scan_length : ∀ (rest : List Char) (st : ParserState) (a : Nat),
    (scan rest st a).1.length = rest.length ∧ ∀ o, o ∈ (scan rest st a).2 → o < rest.length := by
  intro rest
  induction rest with
  | nil => intro st a; simp [scan]
  | cons c cs ih =>
    intro st a
    unfold scan
    split
    · split
      · refine ⟨by simp [(ih _ _).1], ?_⟩
        intro o ho
        split at ho
        · rcases List.mem_cons.mp ho with h | h
          · simp [h]
          · obtain ⟨o2, ho2, rfl⟩ := List.mem_map.mp h
            have := (ih _ _).2 o2 ho2
            simp only [List.length_cons]
            omega
        · obtain ⟨o2, ho2, rfl⟩ := List.mem_map.mp ho
          have := (ih _ _).2 o2 ho2
          simp only [List.length_cons]
          omega
      · refine ⟨by simp [(ih _ _).1], ?_⟩
        intro o ho
        obtain ⟨o2, ho2, rfl⟩ := List.mem_map.mp ho
        have := (ih _ _).2 o2 ho2
        simp only [List.length_cons]
        omega
    · simp

theorem cstr_append_nul (l junk : List Char) : cstr (l ++ NUL :: junk) = cstr l := by
  induction l with
  | nil => simp [cstr_cons, cstr_nil]
  | cons c cs ih =>
    simp only [List.cons_append, cstr_cons, ih]

theorem not_mem_effective_text (line : List Char) : NUL ∉ effective_text line := by
  intro h
  have e : effective_text line =
      (cstr line).take (strlen line - (run_in_background line).toNat - 1) := by
    rw [cstr_eq_take, List.take_take, effective_text]
    congr 1
    omega
  rw [e] at h
  exact not_mem_cstr line (List.mem_of_mem_take h)

theorem cut_eq (line : List Char) (h0 : strlen line ≠ 0) :
    cut line = effective_text line ++
      NUL :: line.drop (strlen line - (run_in_background line).toNat - 1 + 1) := by
  have hlt := cut_index_lt line h0
  have hle := strlen_le line
  unfold cut effective_text
  exact List.set_eq_take_cons_drop NUL (by omega)

/-- The argument vector is what `scan` finds in the text before the terminator of
line 116. -/
theorem argv_of_eq_scan (line : List Char) (h0 : strlen line ≠ 0) :
    argv_of line =
      some (tokens_of (scan (effective_text line) ParserState.STATE_SPACE 0)) := by
  have hlen : (effective_text line).length < line.length + 1 := by
    simp only [effective_text, List.length_take]
    omega
  have hloop := tokenLoop_scan
    (line.drop (strlen line - (run_in_background line).toNat - 1 + 1))
    (effective_text line) [] ParserState.STATE_SPACE [] (line.length + 1)
    (not_mem_effective_text line) hlen
  simp only [List.nil_append, List.length_nil, Nat.add_zero, List.map_id'] at hloop
  rw [← cut_eq line h0] at hloop
  unfold argv_of tokenize
  rw [hloop]
  simp only [Option.map_some', tokens_of, Option.some.injEq]
  apply List.map_congr_left
  intro off hoff
  have hs := scan_length (effective_text line) ParserState.STATE_SPACE 0
  have hoff2 := hs.2 off hoff
  unfold strAt
  rw [List.drop_append_of_le_length (by omega), cstr_append_nul]

theorem tokens_of_shift (c : Char) (r : List Char) (offs : List Nat) :
    tokens_of (c :: r, offs.map (fun o => o + 1)) = tokens_of (r, offs) := by
  simp [tokens_of, List.map_map, Function.comp]

theorem scan_cap (cs : List Char) (st : ParserState) (a : Nat) (h : ¬ a < SHELL_MAX_ARGS) :
    scan cs st a = (cs, []) := by
  cases cs with
  | nil => rfl
  | cons c cs => simp [scan, h]

/-- While a word is being read and the cap is not reached, the string the loop leaves at the
current position is the rest of the word. -/
theorem cstr_scan_non_space : ∀ (cs : List Char) (a : Nat), NUL ∉ cs → a < SHELL_MAX_ARGS →
    cstr (scan cs ParserState.STATE_NON_SPACE a).1 = word_rest cs := by
  intro cs
  induction cs with
  | nil => intro a _ _; rfl
  | cons c cs ih =>
    intro a hnul ha
    simp only [List.mem_cons, not_or] at hnul
    have hc : c ≠ NUL := fun e => hnul.1 e.symm
    by_cases hsp : isspace c = true
    · simp [scan, ha, hsp, word_rest, cstr_cons]
    · have hsp2 : isspace c = false := by simpa using hsp
      simp only [scan, ha, if_true, hsp2, Bool.not_false, cstr_cons, hc, if_false,
        word_rest, List.takeWhile_cons, reduceCtorEq]
      rw [ih a hnul.2 ha]
      rfl

/-- While a word is being read, the arguments still to come are those found after it. -/
theorem tokens_scan_non_space : ∀ (cs : List Char) (a : Nat),
    tokens_of (scan cs ParserState.STATE_NON_SPACE a) =
      tokens_of (scan (after_word cs) ParserState.STATE_SPACE a) := by
  intro cs
  induction cs with
  | nil => intro a; rfl
  | cons c cs ih =>
    intro a
    by_cases ha : a < SHELL_MAX_ARGS
    · by_cases hsp : isspace c = true
      · simp [scan, ha, hsp, after_word, List.dropWhile_cons]
      · have hsp2 : isspace c = false := by simpa using hsp
        have e : after_word (c :: cs) = after_word cs := by
          simp [after_word, List.dropWhile_cons, hsp2]
        rw [e, ← ih a]
        simp only [scan, ha, if_true, hsp2, Bool.not_false, reduceCtorEq, if_false]
        exact tokens_of_shift _ _ _
    · rw [scan_cap _ _ _ ha, scan_cap _ _ _ ha]
      rfl

theorem reference_split_from_word : ∀ (cs cur : List Char), cur ≠ [] →
    reference_split_from cs cur =
      (cur.reverse ++ word_rest cs) :: reference_split_from (after_word cs) [] := by
  intro cs
  induction cs with
  | nil =>
    intro cur hcur
    simp [reference_split_from, hcur, word_rest, after_word]
  | cons c cs ih =>
    intro cur hcur
    by_cases hsp : isspace c = true
    · simp [reference_split_from, hsp, hcur, word_rest, after_word, List.takeWhile_cons,
        List.dropWhile_cons]
    · have hsp2 : isspace c = false := by simpa using hsp
      rw [reference_split_from]
      simp only [hsp2, Bool.false_eq_true, if_false]
      rw [ih (c :: cur) (by simp)]
      simp [word_rest, after_word, List.takeWhile_cons, List.dropWhile_cons, hsp2]

theorem reference_split_cons (c : Char) (cs : List Char) :
    reference_split (c :: cs) =
      if isspace c then reference_split cs
      else (c :: word_rest cs) :: reference_split (after_word cs) := by
  unfold reference_split
  by_cases hsp : isspace c = true
  · simp [reference_split_from, hsp]
  · have hsp2 : isspace c = false := by simpa using hsp
    rw [reference_split_from]
    simp only [hsp2, Bool.false_eq_true, if_false]
    rw [reference_split_from_word cs [c] (by simp)]
    simp

theorem after_word_length (cs : List Char) : (after_word cs).length ≤ cs.length :=
  (List.dropWhile_sublist _).length_le

theorem not_mem_after_word (cs : List Char) (h : NUL ∉ cs) : NUL ∉ after_word cs :=
  fun hm => h ((List.dropWhile_sublist _).subset hm)

theorem tokens_scan_space_cons (c : Char) (cs : List Char) (a : Nat)
    (ha : a < SHELL_MAX_ARGS) (hnul : NUL ∉ c :: cs) :
    tokens_of (scan (c :: cs) ParserState.STATE_SPACE a) =
      if isspace c then tokens_of (scan cs ParserState.STATE_SPACE a)
      else (c :: cstr (scan cs ParserState.STATE_NON_SPACE (a + 1)).1) ::
        tokens_of (scan (after_word cs) ParserState.STATE_SPACE (a + 1)) := by
  simp only [List.mem_cons, not_or] at hnul
  have hc : c ≠ NUL := fun e => hnul.1 e.symm
  by_cases hsp : isspace c = true
  · simp only [scan, ha, if_true, hsp, Bool.not_true, Bool.false_eq_true, if_false]
    exact tokens_of_shift _ _ _
  · have hsp2 : isspace c = false := by simpa using hsp
    simp only [scan, ha, if_true, hsp2, Bool.not_false, Bool.false_eq_true, if_false]
    rw [← tokens_scan_non_space cs (a + 1)]
    simp only [tokens_of, List.map_cons, List.drop_zero, cstr_cons, hc, if_false,
      List.map_map, List.cons.injEq, true_and]
    apply List.map_congr_left
    intro o _
    simp [Function.comp]

/-- The arguments `scan` finds against the reference splitter: the first seven agree, there
are as many as the reference gives up to eight, and the eighth is a suffix of the text that
starts with a character that is not whitespace. -/
theorem scan_vs_reference : ∀ (n : Nat) (cs : List Char) (a : Nat), cs.length ≤ n →
    NUL ∉ cs → a ≤ 7 →
    (tokens_of (scan cs ParserState.STATE_SPACE a)).take (7 - a) =
      (reference_split cs).take (7 - a) ∧
    (tokens_of (scan cs ParserState.STATE_SPACE a)).length =
      min (8 - a) (reference_split cs).length ∧
    (∀ t, (tokens_of (scan cs ParserState.STATE_SPACE a))[7 - a]? = some t →
      t <:+ cs ∧ ∃ c r, t = c :: r ∧ isspace c = false) := by
  intro n
  induction n with
  | zero =>
    intro cs a hlen _ _
    have e : cs = [] := List.length_eq_zero.mp (Nat.le_zero.mp hlen)
    subst e
    simp [scan, tokens_of, reference_split, reference_split_from]
  | succ n ih =>
    intro cs a hlen hnul ha
    cases cs with
    | nil => simp [scan, tokens_of, reference_split, reference_split_from]
    | cons c cs =>
      have ha8 : a < SHELL_MAX_ARGS := by simp only [SHELL_MAX_ARGS]; omega
      have hlen2 : cs.length ≤ n := by simpa using hlen
      have hnul2 : NUL ∉ cs := fun h => hnul (List.mem_cons_of_mem _ h)
      rw [tokens_scan_space_cons c cs a ha8 hnul, reference_split_cons]
      by_cases hsp : isspace c = true
      · simp only [hsp, if_true]
        obtain ⟨h1, h2, h3⟩ := ih cs a hlen2 hnul2 ha
        refine ⟨h1, h2, ?_⟩
        intro t ht
        obtain ⟨hsuf, hst⟩ := h3 t ht
        exact ⟨List.IsSuffix.trans hsuf (List.suffix_cons c cs), hst⟩
      · have hsp2 : isspace c = false := by simpa using hsp
        simp only [hsp2, Bool.false_eq_true, if_false]
        by_cases h7 : a = 7
        · subst h7
          rw [scan_cap cs _ 8 (by decide)]
          simp only [Nat.sub_self, List.take_zero, List.length_cons, true_and,
            cstr_of_not_mem hnul2]
          rw [scan_cap _ _ 8 (by decide)]
          refine ⟨by simp [tokens_of], ?_⟩
          intro t ht
          simp only [List.getElem?_cons_zero, Option.some.injEq] at ht
          subst ht
          exact ⟨List.suffix_refl _, c, cs, rfl, hsp2⟩
        · have ha6 : a + 1 ≤ 7 := by omega
          have hcap : a + 1 < SHELL_MAX_ARGS := by simp only [SHELL_MAX_ARGS]; omega
          obtain ⟨h1, h2, h3⟩ := ih (after_word cs) (a + 1)
            (Nat.le_trans (after_word_length cs) hlen2) (not_mem_after_word cs hnul2) ha6
          rw [cstr_scan_non_space cs (a + 1) hnul2 hcap]
          have e7 : 7 - a = (7 - (a + 1)) + 1 := by omega
          refine ⟨?_, ?_, ?_⟩
          · rw [e7, List.take_succ_cons, List.take_succ_cons, h1]
          · simp only [List.length_cons, h2]
            omega
          · intro t ht
            rw [e7, List.getElem?_cons_succ] at ht
            obtain ⟨hsuf, hst⟩ := h3 t ht
            refine ⟨?_, hst⟩
            exact List.IsSuffix.trans hsuf
              (List.IsSuffix.trans (List.dropWhile_suffix _) (List.suffix_cons c cs))

/-- The tokenizer against the reference whitespace splitter applied to the scanned text: the
first seven arguments are the first seven words, the number of arguments is the number of
words up to eight, and an eighth argument is a whole suffix of the text, starting at a
character that is not whitespace. -/
theorem tokenizer_vs_reference (line : List Char) (h0 : strlen line ≠ 0) :
    ∃ args, argv_of line = some args ∧
      args.take 7 = (reference_split (effective_text line)).take 7 ∧
      args.length = min 8 (reference_split (effective_text line)).length ∧
      (∀ t, args[7]? = some t →
        t <:+ effective_text line ∧ ∃ c r, t = c :: r ∧ isspace c = false) := by
  refine ⟨_, argv_of_eq_scan line h0, ?_⟩
  exact scan_vs_reference _ (effective_text line) 0 (Nat.le_refl _)
    (not_mem_effective_text line) (by omega)

/-- Below the cap of `SHELL_MAX_ARGS` the tokenizer is the reference splitter. -/
theorem tokenizer_below_cap (line : List Char) (h0 : strlen line ≠ 0)
    (hw : (reference_split (effective_text line)).length < SHELL_MAX_ARGS) :
    argv_of line = some (reference_split (effective_text line)) := by
  obtain ⟨args, ha, h7, hlen, _⟩ := tokenizer_vs_reference line h0
  rw [ha]
  simp only [SHELL_MAX_ARGS] at hw
  have hl : args.length ≤ 7 := by omega
  have hl2 : (reference_split (effective_text line)).length ≤ 7 := by omega
  rw [List.take_of_length_le hl, List.take_of_length_le hl2] at h7
  rw [h7]

theorem reference_split_from_append_space (c : Char) (hc : isspace c = true) :
    ∀ (body cur : List Char),
      reference_split_from (body ++ [c]) cur = reference_split_from body cur := by
  intro body
  induction body with
  | nil =>
    intro cur
    by_cases hcur : cur = [] <;> simp [reference_split_from, hc, hcur]
  | cons b bs ih =>
    intro cur
    rw [List.cons_append, reference_split_from, reference_split_from, ih, ih]

/-- For a line that ends with a newline and has no background marker, the scanned text is the
line without the newline, and the reference splitter finds the same words in both. -/
theorem effective_text_newline (body : List Char) (hnul : NUL ∉ body)
    (hbg : run_in_background (body ++ ['\n']) = false) :
    effective_text (body ++ ['\n']) = body ∧
      reference_split (body ++ ['\n']) = reference_split body := by
  have hn : NUL ∉ body ++ ['\n'] := by
    simp only [List.mem_append, List.mem_singleton, not_or]
    exact ⟨hnul, by decide⟩
  constructor
  · unfold effective_text
    rw [hbg, strlen_of_not_mem hn]
    simp
  · exact reference_split_from_append_space '\n' (by decide) body []

theorem is_replay_of_bang_digit (line : List Char) (hb : charAt line 0 = '!')
    (hd : isdigit (charAt line 1) = true) : is_replay line = true := by
  have h1 : strlen line > 1 := by
    by_contra hle
    have hz := charAt_strlen line
    rcases Nat.lt_or_ge 0 (strlen line) with hpos | hzero
    · have e : strlen line = 1 := by omega
      rw [e] at hz
      rw [hz] at hd
      exact absurd hd (by decide)
    · have e : strlen line = 0 := by omega
      rw [e, hb] at hz
      exact absurd hz (by decide)
  simp [is_replay, hb, h1, hd]

/-- Below 2^31 `atoi` returns the decimal number formed by the leading digits. -/
theorem atoi_of_lt (text : List Char) (h : atoi_digits text 0 < 2 ^ 31) :
    atoi text = Int.ofNat (atoi_digits text 0) := by
  have h63 : atoi_digits text 0 ≤ 2 ^ 63 - 1 := by
    have : (2 : Nat) ^ 31 ≤ 2 ^ 63 - 1 := by decide
    omega
  have h32 : atoi_digits text 0 % 2 ^ 32 = atoi_digits text 0 := by
    apply Nat.mod_eq_of_lt
    have : (2 : Nat) ^ 31 ≤ 2 ^ 32 := by decide
    omega
  unfold atoi strtol long_to_int
  rw [Nat.min_eq_left h63, h32, if_pos h]

/-- A replay whose index is negative reads `cmd_history` outside the array. -/
theorem replay_negative_index (s : Shell) (line : List Char) (env : Env) (k : Nat)
    (hb : charAt line 0 = '!') (hd : isdigit (charAt line 1) = true)
    (hN : atoi (line.drop 1) = Int.negSucc k) :
    main_iteration s (some line) env =
      ([Event.prompt env.pid s.shell_nesting_level (s.command_counter % HISTORY_SIZE)],
        Loop.undefined) := by
  have hr := is_replay_of_bang_digit line hb hd
  unfold main_iteration
  simp only [hr, if_true, hN]

/-- The replay test of `main` for an index that is not negative: "Not valid" is reported
exactly when the index is too large or the slot is empty, and nothing else happens then. -/
theorem replay_rejected_iff (s : Shell) (line : List Char) (env : Env) (N : Nat)
    (hb : charAt line 0 = '!') (hd : isdigit (charAt line 1) = true)
    (hN : atoi (line.drop 1) = Int.ofNat N) :
    (Event.notValid ∈ (main_iteration s (some line) env).1 ↔
      (N ≥ HISTORY_SIZE ∨ N ≥ s.command_counter ∨ ∃ h : N < 10, charAt (s.cmd_history ⟨N, h⟩) 0 = NUL)) ∧
    ((N ≥ HISTORY_SIZE ∨ N ≥ s.command_counter ∨ ∃ h : N < 10, charAt (s.cmd_history ⟨N, h⟩) 0 = NUL) →
      main_iteration s (some line) env =
        ([Event.prompt env.pid s.shell_nesting_level (s.command_counter % HISTORY_SIZE),
          Event.notValid], Loop.continue s)) := by
  have hr := is_replay_of_bang_digit line hb hd
  unfold main_iteration
  simp only [hr, if_true, hN]
  by_cases h10 : N < 10
  · rw [dif_pos h10]
    by_cases hc : N ≥ s.command_counter ∨ charAt (s.cmd_history ⟨N, h10⟩) 0 = NUL
    · rw [if_pos hc]
      have hcond : N ≥ HISTORY_SIZE ∨ N ≥ s.command_counter ∨
          ∃ h : N < 10, charAt (s.cmd_history ⟨N, h⟩) 0 = NUL := by
        rcases hc with h | h
        · exact Or.inr (Or.inl h)
        · exact Or.inr (Or.inr ⟨h10, h⟩)
      exact ⟨⟨fun _ => hcond, fun _ => by simp⟩, fun _ => rfl⟩
    · rw [if_neg hc]
      have hncond : ¬ (N ≥ HISTORY_SIZE ∨ N ≥ s.command_counter ∨
          ∃ h : N < 10, charAt (s.cmd_history ⟨N, h⟩) 0 = NUL) := by
        rintro (h | h | ⟨_, h⟩)
        · simp [HISTORY_SIZE] at h; omega
        · exact hc (Or.inl h)
        · exact hc (Or.inr h)
      refine ⟨⟨fun hmem => ?_, fun h => absurd h hncond⟩, fun h => absurd h hncond⟩
      rcases List.mem_cons.mp hmem with h | h
      · exact absurd h (by simp)
      · rcases List.mem_cons.mp h with h | h
        · exact absurd h (by simp)
        · exact absurd h (notValid_not_mem_parse_and_execute _ s env)
  · rw [dif_neg h10]
    have hcond : N ≥ HISTORY_SIZE ∨ N ≥ s.command_counter ∨
        ∃ h : N < 10, charAt (s.cmd_history ⟨N, h⟩) 0 = NUL := Or.inl (by simp [HISTORY_SIZE]; omega)
    exact ⟨⟨fun _ => hcond, fun _ => by simp⟩, fun _ => rfl⟩


/-- An accepted replay echoes the text of the slot and hands it to `parse_and_execute`. -/
theorem replay_accepted (s : Shell) (line : List Char) (env : Env) (N : Nat)
    (hb : charAt line 0 = '!') (hd : isdigit (charAt line 1) = true)
    (hN : atoi (line.drop 1) = Int.ofNat N) (h10 : N < 10) (hc : N < s.command_counter)
    (hne : charAt (s.cmd_history ⟨N, h10⟩) 0 ≠ NUL) :
    main_iteration s (some line) env =
      (Event.prompt env.pid s.shell_nesting_level (s.command_counter % HISTORY_SIZE) ::
        Event.reExecuting (strncpy (s.cmd_history ⟨N, h10⟩) SHELL_BUFFER_SIZE) ::
        (parse_and_execute (strncpy (s.cmd_history ⟨N, h10⟩) SHELL_BUFFER_SIZE) s env).1,
       after_call
        (parse_and_execute (strncpy (s.cmd_history ⟨N, h10⟩) SHELL_BUFFER_SIZE) s env).2) := by
  have hr := is_replay_of_bang_digit line hb hd
  unfold main_iteration
  simp only [hr, if_true, hN]
  rw [dif_pos h10, if_neg]
  rintro (h | h)
  · omega
  · exact hne h

theorem charAt_zero_ne_nul (l : List Char) (hne : l ≠ []) (hnul : NUL ∉ l) :
    charAt l 0 ≠ NUL := by
  cases l with
  | nil => exact absurd rfl hne
  | cons c cs =>
    rw [charAt_cons_zero]
    intro e
    exact hnul (by rw [← e]; exact List.mem_cons_self _ _)

/-- In a reachable state a replay whose index is not negative is accepted exactly when the
index is below 10 and below the counter: the emptiness test never decides; an accepted replay
echoes and dispatches the text of the slot. -/
theorem reachable_replay_rule (s : Shell) (hr : Reachable s) (line : List Char) (env : Env)
    (N : Nat) (hb : charAt line 0 = '!') (hd : isdigit (charAt line 1) = true)
    (hN : atoi (line.drop 1) = Int.ofNat N) :
    (Event.notValid ∉ (main_iteration s (some line) env).1 ↔
      (N < 10 ∧ N < s.command_counter)) ∧
    (∀ h10 : N < 10, N < s.command_counter →
      main_iteration s (some line) env =
        (Event.prompt env.pid s.shell_nesting_level (s.command_counter % HISTORY_SIZE) ::
          Event.reExecuting (s.cmd_history ⟨N, h10⟩) ::
          (parse_and_execute (s.cmd_history ⟨N, h10⟩) s env).1,
         after_call (parse_and_execute (s.cmd_history ⟨N, h10⟩) s env).2)) := by
  have hv := reachable_ring_valid s hr
  constructor
  · rw [(replay_rejected_iff s line env N hb hd hN).1]
    constructor
    · intro hnot
      simp only [not_or, HISTORY_SIZE] at hnot
      omega
    · rintro ⟨h10, hc⟩ (h | h | ⟨h, he⟩)
      · simp only [HISTORY_SIZE] at h; omega
      · omega
      · have hvi := hv ⟨N, h⟩ hc
        exact charAt_zero_ne_nul _ hvi.2.1 hvi.1.2 he
  · intro h10 hc
    have hvi := hv ⟨N, h10⟩ hc
    have e := replay_accepted s line env N hb hd hN h10 hc
      (charAt_zero_ne_nul _ hvi.2.1 hvi.1.2)
    rw [strncpy_of_line hvi.1.1 hvi.1.2] at e
    exact e

/-- For a line `!N` whose number is below 2^31 the replay test does what it is meant to:
"Not valid" is reported exactly when `N ≥ HISTORY_SIZE`, or `N ≥ command_counter`, or slot `N`
is empty, and the iteration then does nothing else and keeps the state. -/
theorem replay_rejected_below_int_max (s : Shell) (line : List Char) (env : Env)
    (hb : charAt line 0 = '!') (hd : isdigit (charAt line 1) = true)
    (hlt : atoi_digits (line.drop 1) 0 < 2 ^ 31) :
    (Event.notValid ∈ (main_iteration s (some line) env).1 ↔
      (atoi_digits (line.drop 1) 0 ≥ HISTORY_SIZE ∨
        atoi_digits (line.drop 1) 0 ≥ s.command_counter ∨
        ∃ h : atoi_digits (line.drop 1) 0 < 10,
          charAt (s.cmd_history ⟨atoi_digits (line.drop 1) 0, h⟩) 0 = NUL)) ∧
    ((atoi_digits (line.drop 1) 0 ≥ HISTORY_SIZE ∨
        atoi_digits (line.drop 1) 0 ≥ s.command_counter ∨
        ∃ h : atoi_digits (line.drop 1) 0 < 10,
          charAt (s.cmd_history ⟨atoi_digits (line.drop 1) 0, h⟩) 0 = NUL) →
      main_iteration s (some line) env =
        ([Event.prompt env.pid s.shell_nesting_level (s.command_counter % HISTORY_SIZE),
          Event.notValid], Loop.continue s)) :=
  replay_rejected_iff s line env _ hb hd (atoi_of_lt _ hlt)

/-! ## The claims -/

/-- C1, failing input. On the line of nine words `a b c d e f g h i` the loop stops right
after the first character of the eighth word, so the eighth argument is the rest of the line,
`h i`, with a space inside, where the reference splitter truncated to eight words gives `h`;
on eight words followed by a space the eighth argument is `h` with the space. -/
theorem eighth_argument_keeps_rest_of_line :
    argv_of "a b c d e f g h i\n".toList =
      some ["a".toList, "b".toList, "c".toList, "d".toList, "e".toList, "f".toList,
        "g".toList, "h i".toList] ∧
    (reference_split "a b c d e f g h i\n".toList).take SHELL_MAX_ARGS =
      ["a".toList, "b".toList, "c".toList, "d".toList, "e".toList, "f".toList,
        "g".toList, "h".toList] ∧
    argv_of "a b c d e f g h \n".toList =
      some ["a".toList, "b".toList, "c".toList, "d".toList, "e".toList, "f".toList,
        "g".toList, "h ".toList] ∧
    (reference_split "a b c d e f g h \n".toList).take SHELL_MAX_ARGS =
      ["a".toList, "b".toList, "c".toList, "d".toList, "e".toList, "f".toList,
        "g".toList, "h".toList] := by
  decide

/-- C2, failing input. In the child of the fork for the line `nosuch` (no such program on
`PATH`) and for the line `./nosuch` (`execv` fails), `parse_and_execute` returns `-1`, and the
loop of `main` goes on with the state it had: the process does not terminate, and it
dispatches the next line it reads (here it calls `chdir` for `cd /tmp`). -/
theorem failed_launch_child_keeps_running :
    (parse_and_execute "nosuch\n".toList (emptyShell 0 0) (sampleEnv ForkResult.child)).2.ret?
      = some (-1) ∧
    (parse_and_execute "./nosuch\n".toList (emptyShell 0 0) (sampleEnv ForkResult.child)).2.ret?
      = some (-1) ∧
    (main_iteration (emptyShell 0 0) (some "nosuch\n".toList)
      (sampleEnv ForkResult.child)).2.status? = none ∧
    ((main_iteration (emptyShell 0 0) (some "nosuch\n".toList)
      (sampleEnv ForkResult.child)).2.state?.map (fun s => s.command_counter)) = some 0 ∧
    (main_iteration (emptyShell 0 0) (some "./nosuch\n".toList)
      (sampleEnv ForkResult.child)).2.status? = none ∧
    Event.chdir "/tmp".toList ∈
      (main_loop (emptyShell 0 0)
        [("nosuch\n".toList, sampleEnv ForkResult.child),
         ("cd /tmp\n".toList, sampleEnv ForkResult.child)]
        (sampleEnv ForkResult.child)).1 := by
  decide

/-- C3, counterexample. For the line `cd` alone the shell calls `fork`; the parent waits
for the child and records the line, and the child that finds an executable `/bin/cd` is
replaced by that program. -/
theorem cd_alone_forks :
    argv_of "cd\n".toList = some ["cd".toList] ∧
    Event.fork ∈
      (parse_and_execute "cd\n".toList (emptyShell 0 0) (sampleEnv (ForkResult.parent 7))).1 ∧
    ((parse_and_execute "cd\n".toList (emptyShell 0 0)
      (sampleEnv (ForkResult.parent 7))).2.state?.map (fun s => s.command_counter)) = some 1 ∧
    Event.execv "/bin/cd".toList ["cd".toList] ∈
      (parse_and_execute "cd\n".toList (emptyShell 0 0)
        { sampleEnv ForkResult.child with access := fun _ => true, execv := fun _ => true }).1 := by
  decide

/-- C3, amended. For a line whose argument vector is exactly `cd`, `parse_and_execute` never
calls `chdir`, and it treats the line as an external command: it calls `fork`; when `fork`
fails nothing changes; in the child the launcher is run for the program `cd` with the
argument vector `cd`; in the parent the raw line is recorded and 0 is returned. -/
theorem cd_alone_is_external (line : List Char) (s : Shell) (env : Env)
    (h : argv_of line = some ["cd".toList]) :
    (∀ dir, Event.chdir dir ∉ (parse_and_execute line s env).1) ∧
    Event.fork ∈ (parse_and_execute line s env).1 ∧
    (env.fork = ForkResult.failed →
      parse_and_execute line s env = ([Event.fork, Event.forkFailed], Outcome.returned 0 s)) ∧
    (env.fork = ForkResult.child →
      parse_and_execute line s env =
        (Event.fork :: (imthechild "cd".toList ["cd".toList] s env).1,
          (imthechild "cd".toList ["cd".toList] s env).2)) ∧
    (∀ pid, env.fork = ForkResult.parent pid →
      parse_and_execute line s env =
        (Event.fork :: imtheparent pid (run_in_background line) env,
          Outcome.returned 0 (record s (strncpy line SHELL_BUFFER_SIZE)))) := by
  have hd := (parse_and_execute_of_argv line s env _ _ h).2
  have e : parse_and_execute line s env =
      match env.fork with
      | ForkResult.failed => ([Event.fork, Event.forkFailed], Outcome.returned 0 s)
      | ForkResult.child =>
        (Event.fork :: (imthechild "cd".toList ["cd".toList] s env).1,
          (imthechild "cd".toList ["cd".toList] s env).2)
      | ForkResult.parent pid =>
        (Event.fork :: imtheparent pid (run_in_background line) env,
          Outcome.returned 0 (record s (strncpy line SHELL_BUFFER_SIZE))) := by
    rw [hd, dispatch]
    rw [if_neg (by decide), if_neg (by decide), if_neg (by decide), if_neg (by decide)]
  refine ⟨?_, ?_, ?_, ?_, ?_⟩
  · intro dir
    rw [e]
    cases env.fork with
    | failed => simp
    | child =>
      simp only [List.mem_cons, false_or]
      unfold imthechild
      rw [if_neg (by decide)]
      unfold search_path
      split
      · simp
      · next path_copy _ =>
        have hloop : ∀ dirs, Event.chdir dir ∉ (search_loop "cd".toList env dirs).1 := by
          intro dirs
          induction dirs with
          | nil => simp [search_loop]
          | cons d ds ih =>
            unfold search_loop
            split
            · simp
            · simpa using ih
        have hl := hloop (strtok_fields ':' path_copy [])
        split
        · next evs found heq =>
          rw [heq] at hl
          split <;> simpa using hl
        · next evs heq =>
          rw [heq] at hl
          simpa using hl
    | parent pid =>
      simp only [List.mem_cons, false_or]
      unfold imtheparent
      split
      · simp
      · split <;> simp
  · rw [e]
    cases env.fork <;> simp
  · intro hf
    rw [e, hf]
  · intro hf
    rw [e, hf]
  · intro pid hf
    rw [e, hf]

/-- The amended C3 at the line `cd` in the parent of a fork. -/
theorem cd_alone_is_external_witness :
    argv_of "cd\n".toList = some ["cd".toList] ∧
    Event.fork ∈
      (parse_and_execute "cd\n".toList (emptyShell 0 0) (sampleEnv (ForkResult.parent 7))).1 :=
  ⟨by decide,
    (cd_alone_is_external "cd\n".toList (emptyShell 0 0) (sampleEnv (ForkResult.parent 7))
      (by decide)).2.1⟩

/-- C4, failing input. In a state with counter 1 whose slot 0 holds the line `ls`, the line
`!4294967296` asks for the index 4294967296, which is not below `HISTORY_SIZE`; `atoi` returns
0 for it, so the iteration reports no "Not valid": it echoes and dispatches slot 0, forks, and
the counter becomes 2.  For `!2147483648` `atoi` returns -2147483648; the iteration reports
no "Not valid" either, it reads `cmd_history` at that index, outside the array. -/
theorem replay_index_wraps :
    is_replay "!4294967296\n".toList = true ∧
    atoi_digits ("!4294967296\n".toList.drop 1) 0 = 4294967296 ∧
    4294967296 ≥ HISTORY_SIZE ∧
    atoi ("!4294967296\n".toList.drop 1) = 0 ∧
    Event.notValid ∉
      (main_iteration lsShell (some "!4294967296\n".toList) (sampleEnv (ForkResult.parent 7))).1 ∧
    Event.reExecuting "ls\n".toList ∈
      (main_iteration lsShell (some "!4294967296\n".toList) (sampleEnv (ForkResult.parent 7))).1 ∧
    Event.fork ∈
      (main_iteration lsShell (some "!4294967296\n".toList) (sampleEnv (ForkResult.parent 7))).1 ∧
    ((main_iteration lsShell (some "!4294967296\n".toList)
      (sampleEnv (ForkResult.parent 7))).2.state?.map (fun s => s.command_counter)) = some 2 ∧
    is_replay "!2147483648\n".toList = true ∧
    atoi ("!2147483648\n".toList.drop 1) = -2147483648 ∧
    Event.notValid ∉
      (main_iteration lsShell (some "!2147483648\n".toList) (sampleEnv (ForkResult.parent 7))).1 ∧
    (main_iteration lsShell (some "!2147483648\n".toList)
      (sampleEnv (ForkResult.parent 7))).2.is_undefined = true := by
  decide

/-- C5. History ring wraparound: in a fresh shell instance (counter 0), after `k` recorded
commands, with `k` below 2^31 so that the `int` counter holds every value it takes, the
counter is `k` and every slot `i < min k 10` holds the raw line of the most
recent command whose position `j` (from 0) has `j % 10 = i`.  After eleven commands slot 0
holds the eleventh one, which is not the first when the two differ, and the line `!0` then
echoes the eleventh command and hands it to `parse_and_execute`. -/
theorem history_ring_wraparound (garbage : Fin 10 → List Char)
    (cmds : List (List Char × Env)) (s : Shell)
    (hl : ∀ c, c ∈ cmds → fgets_line c.1) (_hk : cmds.length < 2 ^ 31)
    (hrun : run_recorded (fresh garbage) cmds = some s) :
    s.command_counter = cmds.length ∧
    (∀ i : Fin 10, i.val < cmds.length →
      ∃ j, j < cmds.length ∧ j % 10 = i.val ∧
        (∀ j2, j2 < cmds.length → j2 % 10 = i.val → j2 ≤ j) ∧
        (cmds[j]?).map Prod.fst = some (s.cmd_history i)) ∧
    (cmds.length = 11 →
      (cmds[10]?).map Prod.fst = some (s.cmd_history ⟨0, by decide⟩) ∧
      ((cmds[0]?).map Prod.fst ≠ (cmds[10]?).map Prod.fst →
        (cmds[0]?).map Prod.fst ≠ some (s.cmd_history ⟨0, by decide⟩)) ∧
      ∀ env, main_iteration s (some "!0\n".toList) env =
        (Event.prompt env.pid s.shell_nesting_level (s.command_counter % HISTORY_SIZE) ::
          Event.reExecuting (s.cmd_history ⟨0, by decide⟩) ::
          (parse_and_execute (s.cmd_history ⟨0, by decide⟩) s env).1,
         after_call (parse_and_execute (s.cmd_history ⟨0, by decide⟩) s env).2)) := by
  obtain ⟨hc, _, hne, hslots⟩ := run_recorded_spec cmds (fresh garbage) s hl hrun
  have hc0 : s.command_counter = cmds.length := by simpa [fresh] using hc
  have hslot : ∀ i : Fin 10, ∀ j, j < cmds.length → j % 10 = i.val →
      (∀ j2, j2 < cmds.length → j2 % 10 = i.val → j2 ≤ j) →
      (cmds[j]?).map Prod.fst = some (s.cmd_history i) := by
    intro i j hj hhit hmax
    apply (hslots i).1 j hj (by simpa [fresh] using hhit)
    intro j2 hj2 hh
    exact hmax j2 hj2 (by simpa [fresh] using hh)
  refine ⟨hc0, ?_, ?_⟩
  · intro i hi
    have hi10 := i.isLt
    refine ⟨i.val + 10 * ((cmds.length - 1 - i.val) / 10), by omega, by omega, ?_, ?_⟩
    · intro j2 hj2 hh
      omega
    · apply hslot i _ (by omega) (by omega)
      intro j2 hj2 hh
      omega
  · intro h11
    have h10 : (cmds[10]?).map Prod.fst = some (s.cmd_history ⟨0, by decide⟩) := by
      apply hslot ⟨0, by decide⟩ 10 (by omega) (by decide)
      intro j2 hj2 hh
      omega
    refine ⟨h10, ?_, ?_⟩
    · intro hdiff
      rw [h10] at hdiff
      exact hdiff
    · intro env
      have hget : ∃ c, c ∈ cmds ∧ c.1 = s.cmd_history ⟨0, by decide⟩ := by
        cases hg : cmds[10]? with
        | none => rw [hg] at h10; simp at h10
        | some c =>
          rw [hg] at h10
          simp only [Option.map_some', Option.some.injEq] at h10
          exact ⟨c, List.getElem?_mem hg, h10⟩
      obtain ⟨c, hmem, hceq⟩ := hget
      have hfl : fgets_line (s.cmd_history ⟨0, by decide⟩) := hceq ▸ hl c hmem
      have hnz : strlen (s.cmd_history ⟨0, by decide⟩) ≠ 0 := hceq ▸ hne c hmem
      have hnil : s.cmd_history ⟨0, by decide⟩ ≠ [] := by
        intro e
        rw [e] at hnz
        exact hnz rfl
      have hrep : is_replay "!0\n".toList = true := by decide
      have hat : atoi ("!0\n".toList.drop 1) = Int.ofNat 0 := by decide
      unfold main_iteration
      simp only [hrep, if_true, hat]
      rw [dif_pos (by decide)]
      rw [if_neg (by
        rintro (h | h)
        · omega
        · exact charAt_zero_ne_nul _ hnil hfl.2 h)]
      rw [strncpy_of_line hfl.1 hfl.2]

/-- C5 at eleven distinct commands: the counter is 11 and slot 0 holds the eleventh. -/
theorem history_ring_wraparound_witness :
    (∀ c, c ∈ elevenCommands → fgets_line c.1) ∧
    elevenCommands.length < 2 ^ 31 ∧
    (run_recorded (fresh (fun _ => [])) elevenCommands).isSome = true ∧
    (run_recorded (fresh (fun _ => [])) elevenCommands).map (fun s => s.command_counter)
      = some 11 ∧
    (run_recorded (fresh (fun _ => [])) elevenCommands).map
      (fun s => s.cmd_history ⟨0, by decide⟩) = some "c10\n".toList := by
  have hl : ∀ c, c ∈ elevenCommands → fgets_line c.1 := by decide
  have hsome : (run_recorded (fresh (fun _ => [])) elevenCommands).isSome = true := by decide
  obtain ⟨s, hs⟩ := Option.isSome_iff_exists.mp hsome
  have h := history_ring_wraparound (fun _ => []) elevenCommands s hl (by decide) hs
  refine ⟨hl, by decide, hsome, ?_, ?_⟩
  · rw [hs, Option.map_some', h.1]
    rfl
  · rw [hs, Option.map_some', ← (h.2.2 rfl).1]
    rfl

/-- C6. Background-flag rule of `parse_and_execute`: for a non-empty line of length `n` the
flag is true exactly when `n > 2` and the character at position `n - 2` is `&`; when it is
true every argument is a segment of the first `n - 2` characters, so the marker is in no
argument.  The line `cmd &` sets the flag and yields the one argument `cmd`, the three
characters `a&` and newline set the flag and yield `a`, and `&` with newline does not set it. -/
theorem background_flag_rule (line : List Char) (hne : strlen line ≠ 0) :
    (run_in_background line = true ↔
      strlen line > 2 ∧ charAt line (strlen line - 2) = '&') ∧
    (run_in_background line = true →
      ∃ args, argv_of line = some args ∧ ∀ t, t ∈ args → ∃ off,
        off + t.length ≤ strlen line - 2 ∧ t = (line.drop off).take t.length) ∧
    (run_in_background "cmd &\n".toList = true ∧
      argv_of "cmd &\n".toList = some ["cmd".toList]) ∧
    (strlen "a&\n".toList = 3 ∧ run_in_background "a&\n".toList = true ∧
      argv_of "a&\n".toList = some ["a".toList]) ∧
    (strlen "&\n".toList = 2 ∧ run_in_background "&\n".toList = false) := by
  refine ⟨run_in_background_iff line, ?_, by decide, by decide, by decide⟩
  intro hbg
  obtain ⟨args, ha, hseg⟩ := argv_segments line hne
  refine ⟨args, ha, ?_⟩
  intro t ht
  obtain ⟨off, h1, h2⟩ := hseg t ht
  refine ⟨off, ?_, h2⟩
  rw [hbg] at h1
  simpa [Nat.sub_sub] using h1

/-- C6 at the line `cmd &`. -/
theorem background_flag_rule_witness :
    strlen "cmd &\n".toList ≠ 0 ∧
    (run_in_background "cmd &\n".toList = true ↔
      strlen "cmd &\n".toList > 2 ∧
        charAt "cmd &\n".toList (strlen "cmd &\n".toList - 2) = '&') :=
  ⟨by decide, (background_flag_rule "cmd &\n".toList (by decide)).1⟩


/-- C7. Nesting bound: from the top-level shell (nesting level 0) two successive `shell`
commands, each run in the child of the one before, return 1 after a single `fork` and leave
the child at levels 1 and 2, with counter 0.  A `shell` command in a state at level
`MAX_SHELL_NESTING - 1` is refused: no `fork`, only the error message, the level is
unchanged, the raw line is stored in slot `counter % 10` and the counter goes up by 1.
Hence no reachable shell instance has a level above `MAX_SHELL_NESTING - 1`. -/
theorem nesting_bound (s t : Shell) (l1 l2 l3 : List Char) (r1 r2 r3 : List (List Char))
    (env1 env2 env3 : Env)
    (h0 : s.shell_nesting_level = 0) (ht : t.shell_nesting_level = MAX_SHELL_NESTING - 1)
    (h1 : argv_of l1 = some ("shell".toList :: r1))
    (h2 : argv_of l2 = some ("shell".toList :: r2))
    (h3 : argv_of l3 = some ("shell".toList :: r3))
    (hf1 : env1.fork = ForkResult.child) (hf2 : env2.fork = ForkResult.child)
    (hl3 : fgets_line l3) :
    parse_and_execute l1 s env1 = ([Event.fork], Outcome.returned 1 (subshell s)) ∧
    (subshell s).shell_nesting_level = 1 ∧
    parse_and_execute l2 (subshell s) env2 =
      ([Event.fork], Outcome.returned 1 (subshell (subshell s))) ∧
    (subshell (subshell s)).shell_nesting_level = 2 ∧
    (subshell (subshell s)).shell_nesting_level = MAX_SHELL_NESTING - 1 ∧
    parse_and_execute l3 t env3 = ([Event.nestingError], Outcome.returned 0 (record t l3)) ∧
    Event.fork ∉ (parse_and_execute l3 t env3).1 ∧
    (record t l3).shell_nesting_level = t.shell_nesting_level ∧
    (record t l3).cmd_history (slotOf t.command_counter) = l3 ∧
    (record t l3).command_counter = t.command_counter + 1 ∧
    (∀ u, Reachable u → u.shell_nesting_level ≤ MAX_SHELL_NESTING - 1) := by
  have e1 : parse_and_execute l1 s env1 = ([Event.fork], Outcome.returned 1 (subshell s)) := by
    rw [(parse_and_execute_of_argv l1 s env1 _ _ h1).2, dispatch]
    rw [if_neg (by decide), if_neg (by decide), if_neg (fun h => absurd h.1 (by decide)),
      if_pos rfl,
      if_neg (by rw [h0]; decide), hf1]
  have e2 : parse_and_execute l2 (subshell s) env2 =
      ([Event.fork], Outcome.returned 1 (subshell (subshell s))) := by
    rw [(parse_and_execute_of_argv l2 (subshell s) env2 _ _ h2).2, dispatch]
    rw [if_neg (by decide), if_neg (by decide), if_neg (fun h => absurd h.1 (by decide)),
      if_pos rfl,
      if_neg (by simp only [subshell, h0]; decide), hf2]
  have e3 : parse_and_execute l3 t env3 =
      ([Event.nestingError], Outcome.returned 0 (record t l3)) := by
    rw [(parse_and_execute_of_argv l3 t env3 _ _ h3).2, dispatch]
    rw [if_neg (by decide), if_neg (by decide), if_neg (fun h => absurd h.1 (by decide)),
      if_pos rfl,
      if_pos (Nat.le_of_eq ht.symm), strncpy_of_line hl3.1 hl3.2]
  refine ⟨e1, by simp [subshell, h0], e2, by simp [subshell, h0], by simp [subshell, h0,
    MAX_SHELL_NESTING], e3, ?_, rfl, ?_, rfl, reachable_level⟩
  · rw [e3]; simp
  · rw [record_slot, strncpy_of_line hl3.1 hl3.2]

/-- C7 at the line `shell`, refused at level 2 with counter 13. -/
theorem nesting_bound_witness :
    (emptyShell 4 0).shell_nesting_level = 0 ∧
    (emptyShell 13 2).shell_nesting_level = MAX_SHELL_NESTING - 1 ∧
    argv_of "shell\n".toList = some ("shell".toList :: []) ∧
    (sampleEnv ForkResult.child).fork = ForkResult.child ∧
    fgets_line "shell\n".toList ∧
    (record (emptyShell 13 2) "shell\n".toList).cmd_history (slotOf 13) = "shell\n".toList ∧
    Event.fork ∉ (parse_and_execute "shell\n".toList (emptyShell 13 2)
      (sampleEnv (ForkResult.parent 7))).1 :=
  ⟨by decide, by decide, by decide, by decide, by decide,
    (nesting_bound (emptyShell 4 0) (emptyShell 13 2) "shell\n".toList "shell\n".toList
      "shell\n".toList [] [] [] (sampleEnv ForkResult.child) (sampleEnv ForkResult.child)
      (sampleEnv (ForkResult.parent 7)) (by decide) (by decide) (by decide) (by decide)
      (by decide) (by decide) (by decide) (by decide)).2.2.2.2.2.2.2.2.1,
    (nesting_bound (emptyShell 4 0) (emptyShell 13 2) "shell\n".toList "shell\n".toList
      "shell\n".toList [] [] [] (sampleEnv ForkResult.child) (sampleEnv ForkResult.child)
      (sampleEnv (ForkResult.parent 7)) (by decide) (by decide) (by decide) (by decide)
      (by decide) (by decide) (by decide) (by decide)).2.2.2.2.2.2.1⟩

/-- C8, counterexample. What `!!` stores is the raw line, not the two characters `!!`: for
the line `!! x` slot 4 (the counter is 4) then holds `!! x` with its newline, and for the
plain line `!!` it holds the three characters `!!` and newline. -/
theorem bangbang_stores_raw_line :
    argv_of "!! x\n".toList = some ["!!".toList, "x".toList] ∧
    ((parse_and_execute "!! x\n".toList (emptyShell 4 0)
        (sampleEnv ForkResult.child)).2.state?.map
      (fun s => s.cmd_history ⟨4, by decide⟩)) = some "!! x\n".toList ∧
    argv_of "!!\n".toList = some ["!!".toList] ∧
    ((parse_and_execute "!!\n".toList (emptyShell 4 0)
        (sampleEnv ForkResult.child)).2.state?.map
      (fun s => s.cmd_history ⟨4, by decide⟩)) = some "!!\n".toList ∧
    "!!\n".toList ≠ "!!".toList := by
  decide

/-- C8, amended. For every shell state and every line whose first argument is `!!`,
`parse_and_execute` stores the raw line as read (at least three characters long, so never the
bare two characters) in slot `counter % 10`, increments the counter by 1, leaves every other
slot as it was, returns 0, and does nothing but print the history listing: no earlier command
is replayed. -/
theorem bangbang_records_raw_line (line : List Char) (rest : List (List Char)) (s : Shell)
    (env : Env) (hl : fgets_line line) (h : argv_of line = some ("!!".toList :: rest)) :
    parse_and_execute line s env =
      (history_listing (record s line), Outcome.returned 0 (record s line)) ∧
    (record s line).cmd_history (slotOf s.command_counter) = line ∧
    (record s line).command_counter = s.command_counter + 1 ∧
    (∀ i, i ≠ slotOf s.command_counter → (record s line).cmd_history i = s.cmd_history i) ∧
    (∀ e, e ∈ (parse_and_execute line s env).1 → ∃ i t, e = Event.listing i t) ∧
    3 ≤ line.length := by
  obtain ⟨h0, hd⟩ := parse_and_execute_of_argv line s env _ _ h
  have e : parse_and_execute line s env =
      (history_listing (record s line), Outcome.returned 0 (record s line)) := by
    rw [hd, dispatch]
    rw [if_neg (by decide), if_pos rfl, strncpy_of_line hl.1 hl.2]
  refine ⟨e, ?_, rfl, fun i hi => record_other s line i hi, ?_, ?_⟩
  · rw [record_slot, strncpy_of_line hl.1 hl.2]
  · rw [e]
    exact history_listing_events _
  · obtain ⟨args, ha, hseg⟩ := argv_segments line h0
    rw [h] at ha
    simp only [Option.some.injEq] at ha
    obtain ⟨off, hoff, _⟩ := hseg "!!".toList (by rw [← ha]; exact List.mem_cons_self _ _)
    have hlen : ("!!".toList).length = 2 := by decide
    rw [hlen, strlen_of_not_mem hl.2] at hoff
    omega

/-- The amended C8 at the line `!! x` with counter 4. -/
theorem bangbang_records_raw_line_witness :
    fgets_line "!! x\n".toList ∧
    argv_of "!! x\n".toList = some ("!!".toList :: ["x".toList]) ∧
    (record (emptyShell 4 0) "!! x\n".toList).cmd_history (slotOf 4) = "!! x\n".toList :=
  ⟨by decide, by decide,
    (bangbang_records_raw_line "!! x\n".toList ["x".toList] (emptyShell 4 0)
      (sampleEnv ForkResult.child) (by decide) (by decide)).2.1⟩

/-- C9, counterexample. In the line `cmd & ` (a space between the marker and the newline) the
last character that is not whitespace is `&`, yet the flag is false and `&` is the second
argument. -/
theorem background_flag_trailing_space :
    last_non_space "cmd & \n".toList = some '&' ∧
    run_in_background "cmd & \n".toList = false ∧
    argv_of "cmd & \n".toList = some ["cmd".toList, "&".toList] := by
  decide

/-- C9, amended. For a line that ends with a newline the flag is true exactly when the line
is a non-empty text followed by `&` and the newline, the marker directly before the newline;
the last character that is not whitespace is then `&`, and every argument is a segment of the
text before the marker. -/
theorem background_flag_newline (line : List Char) (hnul : NUL ∉ line)
    (hnl : line.getLast? = some '\n') :
    (run_in_background line = true ↔ ∃ init, init ≠ [] ∧ line = init ++ ['&', '\n']) ∧
    (run_in_background line = true → last_non_space line = some '&') ∧
    (∀ init, line = init ++ ['&', '\n'] → init ≠ [] →
      ∃ args, argv_of line = some args ∧ ∀ t, t ∈ args → ∃ off,
        off + t.length ≤ init.length ∧ t = (init.drop off).take t.length) := by
  obtain ⟨body, rfl⟩ := List.getLast?_eq_some_iff.mp hnl
  have hlen : strlen (body ++ ['\n']) = body.length + 1 := by
    rw [strlen_of_not_mem hnul]; simp
  have hiff : run_in_background (body ++ ['\n']) = true ↔
      ∃ init, init ≠ [] ∧ body ++ ['\n'] = init ++ ['&', '\n'] := by
    rw [run_in_background_iff, hlen]
    constructor
    · rintro ⟨h2, hc⟩
      have e : body.length + 1 - 2 = body.length - 1 := by omega
      rw [e, charAt_append_left _ _ _ (by omega), charAt_lt (by omega)] at hc
      have hl : body.getLast? = some '&' := by
        rw [List.getLast?_eq_getElem?, List.getElem?_eq_getElem (by omega), hc]
      obtain ⟨init, rfl⟩ := List.getLast?_eq_some_iff.mp hl
      refine ⟨init, ?_, by simp⟩
      intro hnil
      rw [hnil] at h2
      simp at h2
    · rintro ⟨init, hne, he⟩
      have hb : body = init ++ ['&'] := by
        have he2 : body ++ ['\n'] = (init ++ ['&']) ++ ['\n'] := by simpa using he
        exact List.append_cancel_right he2
      have hpos : 0 < init.length := List.length_pos.mpr hne
      subst hb
      refine ⟨by simp; omega, ?_⟩
      have e : (init ++ ['&']).length + 1 - 2 = init.length + 0 := by simp
      rw [e, List.append_assoc, charAt_append_right]
      rfl
  refine ⟨hiff, ?_, ?_⟩
  · intro hbg
    obtain ⟨init, _, he⟩ := hiff.mp hbg
    rw [he]
    simp [last_non_space, List.find?_cons, isspace]
  · intro init he hne
    have hbg : run_in_background (body ++ ['\n']) = true := hiff.mpr ⟨init, hne, he⟩
    have h0 : strlen (body ++ ['\n']) ≠ 0 := by rw [hlen]; omega
    obtain ⟨args, ha, hseg⟩ := argv_segments _ h0
    refine ⟨args, ha, ?_⟩
    intro t ht
    obtain ⟨off, h1, h2⟩ := hseg t ht
    rw [hbg, hlen] at h1
    have hl : (body ++ ['\n']).length = init.length + 2 := by rw [he]; simp
    have hbl : body.length + 1 = init.length + 2 := by simpa using hl
    have h3 : off + t.length ≤ init.length := by
      simp at h1
      omega
    refine ⟨off, h3, ?_⟩
    rw [he] at h2
    rw [h2]
    have e3 : (List.take t.length (List.drop off (init ++ ['&', '\n']))).length = t.length := by
      rw [← h2]
    rw [e3]
    exact take_drop_append_left _ _ _ _ h3

/-- The amended C9 at the line `cmd &`. -/
theorem background_flag_newline_witness :
    NUL ∉ "cmd &\n".toList ∧ "cmd &\n".toList.getLast? = some '\n' ∧
    (run_in_background "cmd &\n".toList = true → last_non_space "cmd &\n".toList = some '&') :=
  ⟨by decide, by decide, (background_flag_newline "cmd &\n".toList (by decide) (by decide)).2.1⟩

/-- C10, failing input. The state a fresh shell reaches by the line `ls` is reachable, with
counter 1.  There the line `!2147483648` is a replay line for which `atoi` returns
-2147483648: the index is below 10 and below the counter, the emptiness test is evaluated,
and it reads `cmd_history` at a negative index, memory that is no slot of the ring; the
iteration neither rejects nor replays.  And `!4294967296`, whose number is not below 10, has
index 0 and is accepted: slot 0 is echoed and dispatched. -/
theorem replay_reads_outside_history :
    Reachable (record (fresh (fun _ => [])) "ls\n".toList) ∧
    (record (fresh (fun _ => [])) "ls\n".toList).command_counter = 1 ∧
    is_replay "!2147483648\n".toList = true ∧
    atoi ("!2147483648\n".toList.drop 1) = -2147483648 ∧
    (main_iteration (record (fresh (fun _ => [])) "ls\n".toList)
      (some "!2147483648\n".toList) (sampleEnv ForkResult.child)).2.is_undefined = true ∧
    (main_iteration (record (fresh (fun _ => [])) "ls\n".toList)
      (some "!2147483648\n".toList) (sampleEnv ForkResult.child)).1 =
        [Event.prompt 100 0 1] ∧
    atoi_digits ("!4294967296\n".toList.drop 1) 0 = 4294967296 ∧
    Event.reExecuting "ls\n".toList ∈
      (main_iteration (record (fresh (fun _ => [])) "ls\n".toList)
        (some "!4294967296\n".toList) (sampleEnv ForkResult.child)).1 :=
  ⟨Reachable.step (fresh (fun _ => [])) _ "ls\n".toList (sampleEnv (ForkResult.parent 7))
      (Reachable.start _) (by decide) rfl,
    by decide, by decide, by decide, by decide, by decide, by decide, by decide⟩

end SimpleShell
